import Mathlib

/-!
# Native image conversion (`pkg/nativeimgutil`) and bounded reads (`pkg/ioutilx`)

A shallow embedding of `ConvertToRaw`, `convertImageToRaw`, `convertRawToRaw`,
`expand`, `copySparse` and `ReadAtMaximum`, together with the properties of
these functions that the specification states, and the behaviour of the raw
path when the destination is a second spelling of the source.

Conventions of the embedding.

* A Go `error` is a value of `Option Error`; `none` is `nil`.
* The file system is a map from paths to file contents, threaded through the
  functions together with the sequence of mutating calls issued so far.  The
  strings that a caller passes are resolved to paths; where two strings may
  spell one path, the resolution is an explicit parameter (`ConvertToRawOn`).
* Every call whose error the Go code inspects can fail; its outcome is supplied
  by an environment record (`Env`).  Calls whose result the code discards (the
  deferred `Close` and `os.RemoveAll`, `bar.Start`, `bar.Finish`, logging) are
  given their nominal effect.
* File offsets and sizes are `int64` in Go.  They are unbounded integers here:
  every offset that occurs is bounded by the size of a file or by the length
  of the stream copied, which stay below `2^63`.
-/

namespace Lima

/-- One byte of file or image data. -/
abbrev Byte := UInt8

/-- A file-system path.  The file system below keeps its files under paths, so
equal paths name one file and distinct paths name distinct files.  A string
that is a second spelling of a path (`./a` for `a`) is resolved to that path
before the file system is consulted, see `ConvertToRawOn`. -/
abbrev Path := String

/-- Go error values.  The constructors with a `cause` wrap it with `%w`. -/
inductive Error where
  /-- The sentinel `io.EOF`. -/
  | eof : Error
  /-- An error produced by a system call or by a library outside these packages. -/
  | sys (msg : String) : Error
  /-- An error produced outside these packages that wraps another error. -/
  | wrap (msg : String) (cause : Error) : Error
  /-- The path does not name a file. -/
  | notExist (p : Path) : Error
  /-- The path already names a file. -/
  | exist (p : Path) : Error
  /-- A negative offset or size was passed to a system call. -/
  | invalid : Error
  /-- Text `failed to detect the format of %q: %w`. -/
  | detectFormat (source : Path) (cause : Error) : Error
  /-- Text `specified size %d is smaller than the original image size (%d) of %q`. -/
  | sizeTooSmall (size orig : Int) (source : Path) : Error
  /-- Text `image %q is not readable: %w`. -/
  | notReadable (source : Path) (cause : Error) : Error
  /-- Text `unexpected qcow2 image %T`. -/
  | unexpectedQcow2 : Error
  /-- Text `qcow2 image %q has an unexpected backing file: %q`. -/
  | backingFile (source : Path) (bf : String) : Error
  /-- Text `failed to call copySparse(), bufSize=%d, copied=%d: %w`. -/
  | copySparseFailed (bufSize copied : Int) (cause : Error) : Error
  /-- Text `failed to copy %q into %q: %w`. -/
  | copyFailed (source dest : Path) (cause : Error) : Error
  /-- Text `failed to read: %w`. -/
  | readFailed (cause : Error) : Error
  /-- Text `failed to write: %w`. -/
  | writeFailed (cause : Error) : Error
  /-- Text `read %d, but wrote %d bytes`. -/
  | shortWrite (rN wN : Int) : Error
  /-- Text `exceeded the limit (%d bytes): %w`. -/
  | exceeded (n : Int) (cause : Error) : Error
  deriving DecidableEq, Repr

/-- The test `errors.Is(err, io.EOF)`: follows the chain of wrapped causes. -/
def Error.isEOF : Error → Bool
  | .eof => true
  | .wrap _ c => c.isEOF
  | .detectFormat _ c => c.isEOF
  | .notReadable _ c => c.isEOF
  | .copySparseFailed _ _ c => c.isEOF
  | .copyFailed _ _ c => c.isEOF
  | .readFailed c => c.isEOF
  | .writeFailed c => c.isEOF
  | .exceeded _ c => c.isEOF
  | _ => false

/-! ## Files opened for writing -/

/-- The effect of a positioned write of `b` at offset `off` on a file's bytes:
the file is extended with zeros up to `off` when it is shorter, and a write
of no bytes changes nothing. -/
def pwrite (c : List Byte) (off : Nat) (b : List Byte) : List Byte :=
  if b = [] then c
  else (c ++ List.replicate (off - c.length) 0).take off ++ b ++ c.drop (off + b.length)

/-- The effect of `Truncate(n)` on a file's bytes: cut to `n` bytes, or extended
with zeros up to `n` bytes. -/
def truncateTo (c : List Byte) (n : Nat) : List Byte :=
  c.take n ++ List.replicate (n - c.length) 0

/-- An `*os.File` as `copySparse` uses it.  `outcome k b off` is what the `k`-th
`WriteAt(b, off)` issued on the file reports: the byte count and the error.
`calls` records the `WriteAt` calls issued so far. -/
structure OsFile where
  content : List Byte
  outcome : Nat → List Byte → Int → Int × Option Error
  calls : List (Int × List Byte)

/-- The method `(*os.File).WriteAt`: a negative offset is rejected without
writing; otherwise the reported number of bytes of `b` is stored at `off`.
What a write that reports an error has stored is taken to be the reported
count; the properties below do not depend on it. -/
def OsFile.WriteAt (f : OsFile) (b : List Byte) (off : Int) : (Int × Option Error) × OsFile :=
  if off < 0 then
    ((0, some Error.invalid), { f with calls := f.calls ++ [(off, b)] })
  else
    let res := f.outcome f.calls.length b off
    (res, { f with
      content := pwrite f.content off.toNat (b.take res.1.toNat)
      calls := f.calls ++ [(off, b)] })

/-! ## Readers with a fixed buffer -/

/-- The result of one `Read(buf)` with `len(buf) = bufSize`: the bytes
`buf[:rN]` and the error.  A reader returns at most `len(buf)` bytes. -/
structure ReadResult (bufSize : Nat) where
  data : List Byte
  err : Option Error
  le : data.length ≤ bufSize

/-- An `io.Reader` that is always read with a buffer of `bufSize` bytes, given by
the results of its successive `Read` calls.  Once these are used up, `Read`
returns `(0, io.EOF)`. -/
abbrev Reader (bufSize : Nat) := List (ReadResult bufSize)

/-- What `copySparse` returns, with the file and the reader as it leaves them. -/
structure CopyResult (bufSize : Nat) where
  n : Int
  err : Option Error
  w : OsFile
  r : Reader bufSize

/-- The value that `copySparse` assigns to `eof` after a `Read` that returned
the error `rErr`: whether `rErr` is non-nil and `errors.Is(rErr, io.EOF)`. -/
def eofSeen (rErr : Option Error) : Bool :=
  match rErr with
  | some e => e.isEOF
  | none => false

/-- The loop `for !eof` of `copySparse`, entered with `n` bytes advanced. -/
def copySparseLoop {bufSize : Nat} : Reader bufSize → OsFile → Int → CopyResult bufSize
  -- the reader is used up: `Read` returns `(0, io.EOF)`, the empty block
  -- equals the zero buffer, `n += 0`, and the loop ends
  | [], w, n => ⟨n, none, w, []⟩
  | rd :: r, w, n =>
    let eof : Bool := eofSeen rd.err
    if rd.err.isSome ∧ eof = false then
      -- `return n, fmt.Errorf("failed to read: %w", rErr)`
      ⟨n, rd.err.map Error.readFailed, w, r⟩
    else if rd.data = List.replicate rd.data.length 0 then
      -- `bytes.Equal(buf[:rN], zeroBuf[:rN])`: `n += int64(rN)`
      if eof then ⟨n + rd.data.length, none, w, r⟩
      else copySparseLoop r w (n + rd.data.length)
    else
      let wr := w.WriteAt rd.data n
      let wN := wr.1.1
      let n1 := if wN > 0 then n + wN else n
      match wr.1.2 with
      | some e => ⟨n1, some (Error.writeFailed e), wr.2, r⟩
      | none =>
        if wN ≠ rd.data.length then
          ⟨n1, some (Error.shortWrite rd.data.length wN), wr.2, r⟩
        else if eof then ⟨n1, none, wr.2, r⟩
        else copySparseLoop r wr.2 n1

/-- The function `copySparse(w, r, bufSize)`. -/
def copySparse (w : OsFile) {bufSize : Nat} (r : Reader bufSize) : CopyResult bufSize :=
  copySparseLoop r w 0

/-! ## Streams of blocks -/

/-- A block of at most `bufSize` bytes. -/
abbrev Block (bufSize : Nat) := { b : List Byte // b.length ≤ bufSize }

/-- The reader that delivers the blocks `bs` in order with a `nil` error, except
that the last block is delivered with the error `fin` (`nil`, or an
end-of-stream error). -/
def deliver {bufSize : Nat} (fin : Option Error) : List (Block bufSize) → Reader bufSize
  | [] => []
  | [b] => [⟨b.1, fin, b.2⟩]
  | b :: b2 :: bs => ⟨b.1, none, b.2⟩ :: deliver fin (b2 :: bs)

/-- The reader that delivers every block of `bs` with a `nil` error. -/
def deliverAll {bufSize : Nat} (bs : List (Block bufSize)) : Reader bufSize :=
  bs.map fun b => ⟨b.1, none, b.2⟩

/-- The total length of a sequence of blocks. -/
def totalLen {bufSize : Nat} (bs : List (Block bufSize)) : Int :=
  (bs.map fun b => (b.1.length : Int)).sum

/-- Whether a block contains a non-zero byte. -/
def hasNonZero (b : List Byte) : Bool :=
  b.any fun x => x != 0

/-- One write per block that contains a non-zero byte, carrying that block's
bytes, at the offset given by the total length of the blocks before it;
`off` is the offset of the first block. -/
def expectedWrites {bufSize : Nat} : Int → List (Block bufSize) → List (Int × List Byte)
  | _, [] => []
  | off, b :: bs =>
    (if hasNonZero b.1 then [(off, b.1)] else []) ++ expectedWrites (off + b.1.length) bs


/-- The bytes of a file after the positioned writes `ws`, each completing fully. -/
def applyWrites (c : List Byte) : List (Int × List Byte) → List Byte
  | [] => c
  | (off, b) :: ws => applyWrites (pwrite c off.toNat b) ws

/-- The error with which `copySparse` returns when the write of a block of
`rN` bytes reports the error `wErr`, or no error but `wN` bytes. -/
def writeFailure (wErr : Option Error) (rN wN : Int) : Error :=
  match wErr with
  | some e => Error.writeFailed e
  | none => Error.shortWrite rN wN

/-! ## Decoded images -/

/-- The type `image.Type`, a string. -/
abbrev ImageType := String

/-- The constant `raw.Type`. -/
def rawType : ImageType := "raw"

/-- The constant `qcow2.Type`. -/
def qcow2Type : ImageType := "qcow2"

/-- How a call `ReadAt(p, off)` on an image ends.  An `io.ReaderAt` returns a
non-nil error whenever it returns fewer than `len(p)` bytes. -/
inductive ReadAtStatus where
  /-- All `len(p)` bytes are returned with a nil error. -/
  | full : ReadAtStatus
  /-- The first `min n len(p)` bytes are returned with the error `e`
  (`io.EOF` included). -/
  | stopped (n : Nat) (e : Error) : ReadAtStatus
  deriving DecidableEq

/-- An `image.Image` as returned by `qcow2reader.Open`: the results of `Type()`,
`Size()` and `Readable()`, the field `BackingFile` when the value is a
`*qcow2.Qcow2` (`none` when the type assertion fails), the decoded bytes, and
the outcome of `ReadAt(p, off)` as a function of `off` and `len(p)`. -/
structure Image where
  type : ImageType
  size : Int
  readable : Option Error
  backingFile : Option String
  byteAt : Nat → Byte
  readAt : Nat → Nat → ReadAtStatus

/-- The decoded bytes of the image at offsets `off`, ..., `off + k - 1`. -/
def Image.bytes (img : Image) (off k : Nat) : List Byte :=
  (List.range k).map fun i => img.byteAt (off + i)

/-- The method `ReadAt(p, off)` with `len(p) = len`. -/
def Image.ReadAt (img : Image) (off len : Nat) : ReadResult len :=
  match img.readAt off len with
  | .full => ⟨img.bytes off len, none, by simp [Image.bytes]⟩
  | .stopped n e => ⟨img.bytes off (min n len), some e, by simp [Image.bytes]⟩

/-- The successive results of `Read` on an `io.SectionReader` over `img` with
limit `limit`, positioned at `off`, read with a buffer of `bufSize > 0` bytes:
`Read` returns `(0, io.EOF)` once `off >= limit`, and otherwise clips the
buffer to `limit - off` bytes, calls `ReadAt` and advances `off`.  The
results stop after the first non-nil error, after which `copySparse` does not
read again.  Every read with a nil error advances `off` by at least one byte,
so `fuel >= limit - off` reads reach the limit. -/
def sectionReads (img : Image) (bufSize : Nat) (limit : Int) : Nat → Nat → Reader bufSize
  | 0, _ => []
  | fuel + 1, off =>
    if limit ≤ off then []
    else
      let rd := img.ReadAt off (min bufSize (limit - off).toNat)
      ⟨rd.data, rd.err, le_trans rd.le (Nat.min_le_left _ _)⟩ ::
        (if rd.err.isSome then [] else sectionReads img bufSize limit fuel (off + rd.data.length))

/-- The reader `io.NewSectionReader(img, 0, n)`. -/
def NewSectionReader (img : Image) (bufSize : Nat) (n : Int) : Reader bufSize :=
  sectionReads img bufSize n n.toNat 0

/-- Modelled from the spec: the progress reporter of `pkg/progressbar`, which is
not among the sources, "wraps a reader so reads report cumulative progress".
The reader `bar.NewProxyReader(r)` returns what `r` returns. -/
abbrev NewProxyReader {bufSize : Nat} (r : Reader bufSize) : Reader bufSize := r

/-! ## The file system -/

/-- A mutating call issued on the file system.  `expand` marks the entry into
the function `expand(image, size)` and records the length that the file at
`image` has at that moment (`none` when there is no such file). -/
inductive Event where
  | createTemp (p : Path) : Event
  | truncate (p : Path) (size : Int) : Event
  | writeAt (p : Path) (off : Int) (b : List Byte) : Event
  | rename (oldpath newpath : Path) : Event
  | removeAll (p : Path) : Event
  | copyFile (target source : Path) : Event
  | expand (image : Path) (size : Int) (cur : Option Nat) : Event
  deriving DecidableEq

/-- The state of the file system: the bytes of every file, and the mutating
calls issued so far, oldest first. -/
structure World where
  files : Path → Option (List Byte)
  log : List Event

/-- The outcome of `fs.CopyFile`: success, or an error that leaves the target
path in the given state. -/
inductive CopyFileOutcome where
  | ok : CopyFileOutcome
  | failed (e : Error) (left : Option (List Byte)) : CopyFileOutcome

/-- The outcomes of the calls that `ConvertToRaw` makes into the operating
system and into other packages.  A field of type `Option Error` is the error
of the named call (`none`: the call succeeds). -/
structure Env where
  /-- The call `os.Open(source)` on an existing file. -/
  openErr : Option Error
  /-- The call `qcow2reader.Open(srcF)`, as a function of the bytes of the file. -/
  detect : List Byte → Except Error Image
  /-- The call `srcF.Close()` on the raw path. -/
  closeSrcErr : Option Error
  /-- The call `fs.CopyFile(dest, source)`. -/
  copyFile : CopyFileOutcome
  /-- The random string that `os.CreateTemp` puts in place of `*`. -/
  rand : String
  /-- The call `os.CreateTemp`. -/
  createTempErr : Option Error
  /-- The call `destTmpF.Truncate(srcImg.Size())`. -/
  truncateErr : Option Error
  /-- The call `progressbar.New(srcImg.Size())` of `pkg/progressbar`. -/
  barErr : Option Error
  /-- What the `k`-th `destTmpF.WriteAt(b, off)` reports. -/
  writeAt : Nat → List Byte → Int → Int × Option Error
  /-- The call `destTmpF.Close()` after the copy. -/
  closeTmpErr : Option Error
  /-- The call `os.OpenFile(image, os.O_RDWR, 0o644)` in `expand`. -/
  expandOpenErr : Option Error
  /-- The call `f.Truncate(size)` in `expand`. -/
  expandTruncateErr : Option Error
  /-- The call `f.Close()` that `expand` returns. -/
  expandCloseErr : Option Error
  /-- The call `os.Rename(destTmp, dest)`. -/
  renameErr : Option Error

/-- The file system with the file at `p` replaced by `c` (`none`: no file). -/
def World.put (w : World) (p : Path) (c : Option (List Byte)) : World :=
  { w with files := fun q => if q = p then c else w.files q }

/-- The file system with one more call recorded. -/
def World.emit (w : World) (e : Event) : World :=
  { w with log := w.log ++ [e] }

/-- The name of the file that `os.CreateTemp(filepath.Dir(dest),
filepath.Base(dest)+".lima-*.tmp")` creates, for a clean path `dest`. -/
def tempName (dest : Path) (rand : String) : Path :=
  dest ++ ".lima-" ++ rand ++ ".tmp"

/-- The call `os.CreateTemp`: creates the file `p` empty; it fails when a file
of that name exists. -/
def CreateTemp (env : Env) (w : World) (p : Path) : Option Error × World :=
  match env.createTempErr with
  | some e => (some e, w.emit (.createTemp p))
  | none =>
    if (w.files p).isSome then (some (.exist p), w.emit (.createTemp p))
    else (none, (w.emit (.createTemp p)).put p (some []))

/-- The method `(*os.File).Truncate(size)` on the file at `p`, failing with
`err` if that is an error; a negative size is rejected. -/
def Truncate (err : Option Error) (w : World) (p : Path) (size : Int) : Option Error × World :=
  if size < 0 then (some .invalid, w.emit (.truncate p size))
  else
    match err with
    | some e => (some e, w.emit (.truncate p size))
    | none =>
      match w.files p with
      | none => (some (.notExist p), w.emit (.truncate p size))
      | some c => (none, (w.emit (.truncate p size)).put p (some (truncateTo c size.toNat)))

/-- The call `os.Rename(oldpath, newpath)`. -/
def Rename (env : Env) (w : World) (oldpath newpath : Path) : Option Error × World :=
  match env.renameErr with
  | some e => (some e, w.emit (.rename oldpath newpath))
  | none =>
    match w.files oldpath with
    | none => (some (.notExist oldpath), w.emit (.rename oldpath newpath))
    | some c => (none, (((w.emit (.rename oldpath newpath)).put oldpath none).put newpath (some c)))

/-- The call `os.RemoveAll(p)`, whose error the code discards. -/
def RemoveAll (w : World) (p : Path) : World :=
  (w.emit (.removeAll p)).put p none

/-- The call `fs.CopyFile(target, source)`: the source is opened, the target is
created or truncated (`os.Create`), and the bytes that the source then holds
are copied into it.  When `target` is the source file itself, the truncation
empties the file before it is read, nothing is copied and `nil` is returned. -/
def CopyFile (env : Env) (w : World) (target source : Path) : Option Error × World :=
  match env.copyFile with
  | .failed e left => (some e, (w.emit (.copyFile target source)).put target left)
  | .ok =>
    match w.files source with
    | none => (some (.notExist source), w.emit (.copyFile target source))
    | some _ =>
      let w1 := (w.emit (.copyFile target source)).put target (some [])
      (none, w1.put target (w1.files source))

/-! ## The conversion -/

/-- The function `expand(image, size)`. -/
def expand (env : Env) (w : World) (image : Path) (size : Int) : Option Error × World :=
  let w1 := w.emit (.expand image size ((w.files image).map List.length))
  match w1.files image with
  | none => (some (.notExist image), w1)
  | some _ =>
    match env.expandOpenErr with
    | some e => (some e, w1)
    | none =>
      match Truncate env.expandTruncateErr w1 image size with
      | (some e, w2) => (some e, w2)
      | (none, w2) => (env.expandCloseErr, w2)

/-- The function `convertRawToRaw(source, dest, size)`. -/
def convertRawToRaw (env : Env) (w : World) (source dest : Path) (size : Option Int) :
    Option Error × World :=
  match (if source ≠ dest then CopyFile env w dest source else (none, w)) with
  | (some e, w1) => (some (.copyFailed source dest e), w1)
  | (none, w1) =>
    match size with
    | some s => expand env w1 dest s
    | none => (none, w1)

/-- The constant `bufSize` of `convertImageToRaw`. -/
def bufSize : Nat := 1024 * 1024

/-- The body of `convertImageToRaw` after the temp file `destTmp` has been
created, up to the `return`. -/
def convertImageToRawBody (env : Env) (w : World) (srcImg : Image) (dest destTmp : Path)
    (size : Option Int) : Option Error × World :=
  match Truncate env.truncateErr w destTmp srcImg.size with
  | (some e, w1) => (some e, w1)
  | (none, w1) =>
    match env.barErr with
    | some e => (some e, w1)
    | none =>
      -- `destTmpF` is the file at `destTmp`; its writes go to that file
      let res := copySparse ⟨(w1.files destTmp).getD [], env.writeAt, []⟩
        (NewProxyReader (NewSectionReader srcImg bufSize srcImg.size))
      let w2 : World :=
        { files := (w1.put destTmp (some res.w.content)).files
          log := w1.log ++ res.w.calls.map fun c => Event.writeAt destTmp c.1 c.2 }
      match res.err with
      | some e => (some (.copySparseFailed bufSize res.n e), w2)
      | none =>
        match env.closeTmpErr with
        | some e => (some e, w2)
        | none =>
          match (match size with
            | some s => expand env w2 destTmp s
            | none => (none, w2)) with
          | (some e, w3) => (some e, w3)
          | (none, w3) => Rename env w3 destTmp dest

/-- The function `convertImageToRaw(srcImg, dest, size)`.  The deferred
`destTmpF.Close()` and `os.RemoveAll(destTmp)` run after the body on every
path on which the temp file was created. -/
def convertImageToRaw (env : Env) (w : World) (srcImg : Image) (dest : Path)
    (size : Option Int) : Option Error × World :=
  match CreateTemp env w (tempName dest env.rand) with
  | (some e, w1) => (some e, w1)
  | (none, w1) =>
    let r := convertImageToRawBody env w1 srcImg dest (tempName dest env.rand) size
    (r.1, RemoveAll r.2 (tempName dest env.rand))

/-- The test `size != nil && *size < orig` of `ConvertToRaw`: the requested size
when it is below `orig`, and `none` otherwise. -/
def tooSmall (size : Option Int) (orig : Int) : Option Int :=
  match size with
  | some s => if s < orig then some s else none
  | none => none

/-- The function `ConvertToRaw(source, dest, size, allowSourceWithBackingFile)`;
`size` is `none` for a nil pointer. -/
def ConvertToRaw (env : Env) (w : World) (source dest : Path) (size : Option Int)
    (allowSourceWithBackingFile : Bool) : Option Error × World :=
  -- `os.Open(source)`
  match w.files source with
  | none => (some (.notExist source), w)
  | some c =>
    match env.openErr with
    | some e => (some e, w)
    | none =>
      -- `qcow2reader.Open(srcF)`
      match env.detect c with
      | .error e => (some (.detectFormat source e), w)
      | .ok srcImg =>
        match tooSmall size srcImg.size with
        | some s => (some (.sizeTooSmall s srcImg.size source), w)
        | none =>
          match srcImg.readable with
          | some e => (some (.notReadable source e), w)
          | none =>
            -- `switch t := srcImg.Type(); t`
            if srcImg.type = rawType then
              match env.closeSrcErr with
              | some e => (some e, w)
              | none => convertRawToRaw env w source dest size
            else if srcImg.type = qcow2Type then
              if allowSourceWithBackingFile = false then
                match srcImg.backingFile with
                | none => (some .unexpectedQcow2, w)
                | some bf =>
                  if bf ≠ "" then (some (.backingFile source bf), w)
                  else convertImageToRaw env w srcImg dest size
              else convertImageToRaw env w srcImg dest size
            else convertImageToRaw env w srcImg dest size

/-! ## Strings that spell the same path -/

/-- The function `convertRawToRaw(source, dest, size)` on a file system in which
a string can be a second spelling of a path: `file s` is the path under which
the file system keeps the file that the string `s` names.  The test
`source != dest` compares the strings, the calls act on the files.  With
`file s = s` for every `s` this is `convertRawToRaw`. -/
def convertRawToRawOn (file : Path → Path) (env : Env) (w : World) (source dest : Path)
    (size : Option Int) : Option Error × World :=
  match (if source ≠ dest then CopyFile env w (file dest) (file source) else (none, w)) with
  | (some e, w1) => (some (.copyFailed source dest e), w1)
  | (none, w1) =>
    match size with
    | some s => expand env w1 (file dest) s
    | none => (none, w1)

/-- The function `ConvertToRaw(source, dest, size, allowSourceWithBackingFile)`
on a file system in which a string can be a second spelling of a path, with
`file` as in `convertRawToRawOn`.  With `file s = s` for every `s` this is
`ConvertToRaw`. -/
def ConvertToRawOn (file : Path → Path) (env : Env) (w : World) (source dest : Path)
    (size : Option Int) (allowSourceWithBackingFile : Bool) : Option Error × World :=
  match w.files (file source) with
  | none => (some (.notExist source), w)
  | some c =>
    match env.openErr with
    | some e => (some e, w)
    | none =>
      match env.detect c with
      | .error e => (some (.detectFormat source e), w)
      | .ok srcImg =>
        match tooSmall size srcImg.size with
        | some s => (some (.sizeTooSmall s srcImg.size source), w)
        | none =>
          match srcImg.readable with
          | some e => (some (.notReadable source e), w)
          | none =>
            if srcImg.type = rawType then
              match env.closeSrcErr with
              | some e => (some e, w)
              | none => convertRawToRawOn file env w source dest size
            else if srcImg.type = qcow2Type then
              if allowSourceWithBackingFile = false then
                match srcImg.backingFile with
                | none => (some .unexpectedQcow2, w)
                | some bf =>
                  if bf ≠ "" then (some (.backingFile source bf), w)
                  else convertImageToRaw env w srcImg (file dest) size
              else convertImageToRaw env w srcImg (file dest) size
            else convertImageToRaw env w srcImg (file dest) size

/-! ## Bounded reads (`pkg/ioutilx`) -/

/-- An `io.Reader` that yields the bytes `rest` and then `io.EOF`.  A `Read`
into a buffer of `len > 0` bytes returns at least one and at most
`ready k + 1` of the `k` bytes that remain; `eofWithLast` says whether the
`Read` that returns the last byte already reports `io.EOF`. -/
structure ByteStream where
  rest : List Byte
  ready : Nat → Nat
  eofWithLast : Bool

/-- The method `Read(p)` of a `ByteStream`, with `len(p) = len`. -/
def ByteStream.Read (s : ByteStream) (len : Nat) : (List Byte × Option Error) × ByteStream :=
  if s.rest = [] then (([], some .eof), s)
  else
    let k := min len (min s.rest.length (s.ready s.rest.length + 1))
    ((s.rest.take k, if s.eofWithLast = true ∧ k = s.rest.length then some .eof else none),
      { s with rest := s.rest.drop k })

/-- The type `io.LimitedReader`. -/
structure LimitedReader where
  R : ByteStream
  N : Int

/-- The method `(*io.LimitedReader).Read(p)`, with `len(p) = len`. -/
def LimitedReader.Read (l : LimitedReader) (len : Nat) :
    (List Byte × Option Error) × LimitedReader :=
  if l.N ≤ 0 then (([], some .eof), l)
  else
    let r := l.R.Read (if (len : Int) > l.N then l.N.toNat else len)
    (r.1, { R := r.2, N := l.N - r.1.1.length })

/-- The loop of `io.ReadAll(r)` with `b` read so far into a buffer of capacity
`cap`; `grow c` is the extra capacity that `append` adds, beyond the one
byte appended, to a full buffer of capacity `c`.  The result is `none` when
`fuel` iterations do not reach the `return`. -/
def ReadAllLoop (grow : Nat → Nat) : Nat → LimitedReader → List Byte → Nat →
    Option ((List Byte × Option Error) × LimitedReader)
  | 0, _, _, _ => none
  | fuel + 1, l, b, cap =>
    let r := l.Read (cap - b.length)
    let b1 := b ++ r.1.1
    match r.1.2 with
    | some e => some ((b1, if e = .eof then none else some e), r.2)
    | none => ReadAllLoop grow fuel r.2 b1 (if b1.length = cap then cap + 1 + grow cap else cap)

/-- The function `io.ReadAll(r)`: the buffer starts empty with capacity 512. -/
def ReadAll (grow : Nat → Nat) (fuel : Nat) (l : LimitedReader) :
    Option ((List Byte × Option Error) × LimitedReader) :=
  ReadAllLoop grow fuel l [] 512

/-- The function `ReadAtMaximum(r, n)`. -/
def ReadAtMaximum (grow : Nat → Nat) (fuel : Nat) (r : ByteStream) (n : Int) :
    Option (List Byte × Option Error) :=
  match ReadAll grow fuel ⟨r, n⟩ with
  | none => none
  | some ((b, err), lr) =>
    match err with
    | some e =>
      if e.isEOF = true ∧ lr.N ≤ 0 then some (b, some (.exceeded n e)) else some (b, some e)
    | none => some (b, none)

/-! ## Vocabulary of the properties -/

/-- The path on which a call acts; for a rename, the new path. -/
def Event.path : Event → Path
  | .createTemp p => p
  | .truncate p _ => p
  | .writeAt p _ _ => p
  | .rename _ newpath => newpath
  | .removeAll p => p
  | .copyFile target _ => target
  | .expand image _ _ => image

/-- A call of `expand(image, size)` does not shrink: the file exists and its
length at the call is at most `size`.  Every other call satisfies this. -/
def Event.growsOnly : Event → Prop
  | .expand _ size cur => ∃ len : Nat, cur = some len ∧ (len : Int) ≤ size
  | _ => True

/-- The total number of bytes that the reads of a reader return. -/
def Reader.total {bufSize : Nat} (r : Reader bufSize) : Int :=
  (r.map fun rd => (rd.data.length : Int)).sum

/-- The call `ev` does not shrink a file provided `G` holds. -/
def Event.growsIf (G : Prop) (ev : Event) : Prop :=
  G → ev.growsOnly

/-- The file system `w2` arises from `w` by calls that act on the file `tmp`
only and that all satisfy `Q`. -/
def Steps (Q : Event → Prop) (tmp : Path) (w w2 : World) : Prop :=
  (∀ p, p ≠ tmp → w2.files p = w.files p) ∧
  ∃ evs, w2.log = w.log ++ evs ∧ ∀ ev ∈ evs, ev.path = tmp ∧ Q ev

/-! ## Sample inputs -/

/-- A qcow2 image of five bytes, two of them non-zero, without backing file,
whose reads all succeed. -/
def sampleImage : Image where
  type := qcow2Type
  size := 5
  readable := none
  backingFile := some ""
  byteAt := fun i => if i = 1 then 7 else if i = 3 then 9 else 0
  readAt := fun _ _ => .full

/-- The image `sampleImage` with a backing file. -/
def backedImage : Image :=
  { sampleImage with backingFile := some "base.qcow2" }

/-- An environment in which no call fails and the decoder yields `sampleImage`. -/
def sampleEnv : Env where
  openErr := none
  detect := fun _ => .ok sampleImage
  closeSrcErr := none
  copyFile := .ok
  rand := "1"
  createTempErr := none
  truncateErr := none
  barErr := none
  writeAt := fun _ b _ => (b.length, none)
  closeTmpErr := none
  expandOpenErr := none
  expandTruncateErr := none
  expandCloseErr := none
  renameErr := none

/-- The environment `sampleEnv` with a decoder that yields `backedImage`. -/
def backedEnv : Env :=
  { sampleEnv with detect := fun _ => .ok backedImage }

/-- The environment `sampleEnv` in which the final rename fails. -/
def renameFailsEnv : Env :=
  { sampleEnv with renameErr := some (.sys "rename: invalid cross-device link") }

/-- The raw image over a file with bytes `c`. -/
def rawImage (c : List Byte) : Image where
  type := rawType
  size := c.length
  readable := none
  backingFile := none
  byteAt := fun i => c.getD i 0
  readAt := fun _ _ => .full

/-- The environment `sampleEnv` with a decoder that yields the raw image of the
file. -/
def rawEnv : Env :=
  { sampleEnv with detect := fun c => .ok (rawImage c) }

/-- A file system with the single file `a`. -/
def sampleWorld : World where
  files := fun p => if p = "a" then some [1, 2, 3] else none
  log := []

/-- A file system in which the string `./a` is a second spelling of the path
`a`, and every other string spells itself. -/
def secondSpelling : Path → Path :=
  fun s => if s = "./a" then "a" else s

/-- A stream of three blocks of at most four bytes: zeros, a block with
non-zero bytes, zeros. -/
def sampleBlocks : List (Block 4) :=
  [⟨[0, 0], by decide⟩, ⟨[1, 2, 0], by decide⟩, ⟨[0], by decide⟩]

/-- An empty file on which every write completes fully. -/
def goodFile : OsFile where
  content := []
  outcome := fun _ b _ => (b.length, none)
  calls := []

/-- An empty file on which every write stores one byte and reports no error. -/
def shortFile : OsFile where
  content := []
  outcome := fun _ _ _ => (1, none)
  calls := []

/-- A stream of five bytes delivered at most two at a time. -/
def sampleStream : ByteStream where
  rest := [1, 2, 3, 4, 5]
  ready := fun _ => 1
  eofWithLast := false

/-! ## Properties -/

theorem hasNonZero_iff (b : List Byte) :
    hasNonZero b = true ↔ ¬ b = List.replicate b.length 0 := by
  unfold hasNonZero
  rw [List.eq_replicate_iff]
  simp

theorem totalLen_nonneg {bufSize : Nat} (bs : List (Block bufSize)) : 0 ≤ totalLen bs := by
  induction bs with
  | nil => simp [totalLen]
  | cons b bs ih =>
    simp only [totalLen, List.map_cons, List.sum_cons] at ih ⊢
    omega

theorem totalLen_cons {bufSize : Nat} (b : Block bufSize) (bs : List (Block bufSize)) :
    totalLen (b :: bs) = b.1.length + totalLen bs := by
  simp [totalLen]

theorem applyWrites_append (c : List Byte) (ws vs : List (Int × List Byte)) :
    applyWrites c (ws ++ vs) = applyWrites (applyWrites c ws) vs := by
  induction ws generalizing c with
  | nil => rfl
  | cons x ws ih =>
    obtain ⟨off, b⟩ := x
    simp only [List.cons_append, applyWrites]
    exact ih _

/-- A block of zeros read with a nil error only advances the offset. -/
theorem copySparseLoop_zero {bufSize : Nat} (d : List Byte) (h : d.length ≤ bufSize)
    (r : Reader bufSize) (w : OsFile) (n : Int) (hz : d = List.replicate d.length 0) :
    copySparseLoop (⟨d, none, h⟩ :: r) w n = copySparseLoop r w (n + d.length) := by
  rw [copySparseLoop]
  simp [← hz, eofSeen]

/-- A block with a non-zero byte read with a nil error and written in full is
stored at the current offset, which then advances by its length. -/
theorem copySparseLoop_write {bufSize : Nat} (d : List Byte) (h : d.length ≤ bufSize)
    (r : Reader bufSize) (w : OsFile) (n : Int) (hn : 0 ≤ n)
    (hz : ¬ d = List.replicate d.length 0)
    (hw : w.outcome w.calls.length d n = ((d.length : Int), none)) :
    copySparseLoop (⟨d, none, h⟩ :: r) w n =
      copySparseLoop r ⟨pwrite w.content n.toNat d, w.outcome, w.calls ++ [(n, d)]⟩
        (n + d.length) := by
  have hd : d ≠ [] := by
    intro h0
    subst h0
    exact hz rfl
  have hpos : (0 : Int) < d.length := by
    have := List.length_pos.mpr hd
    omega
  rw [copySparseLoop]
  simp [hz, OsFile.WriteAt, not_lt.mpr hn, hw, hpos, eofSeen]

/-- Copying a run of blocks that are read with a nil error and whose writes all
complete fully. -/
theorem copySparseLoop_deliverAll {bufSize : Nat} (pre : List (Block bufSize))
    (rest : Reader bufSize) (w : OsFile) (n : Int) (hn : 0 ≤ n)
    (hw : ∀ k off b, (expectedWrites n pre)[k]? = some (off, b) →
      w.outcome (w.calls.length + k) b off = ((b.length : Int), none)) :
    copySparseLoop (deliverAll pre ++ rest) w n =
      copySparseLoop rest
        ⟨applyWrites w.content (expectedWrites n pre), w.outcome,
          w.calls ++ expectedWrites n pre⟩ (n + totalLen pre) := by
  induction pre generalizing w n with
  | nil => simp [deliverAll, expectedWrites, applyWrites, totalLen]
  | cons b bs ih =>
    have hn2 : 0 ≤ n + (b.1.length : Int) := by omega
    by_cases hz : b.1 = List.replicate b.1.length 0
    · have hnz : hasNonZero b.1 = false := by
        rw [Bool.eq_false_iff]
        intro hc
        exact (hasNonZero_iff b.1).mp hc hz
      have e1 : expectedWrites n (b :: bs) = expectedWrites (n + b.1.length) bs := by
        simp [expectedWrites, hnz]
      simp only [deliverAll, List.map_cons, List.cons_append]
      rw [copySparseLoop_zero _ _ _ _ _ hz]
      have := ih w (n + b.1.length) hn2 (by rw [← e1]; exact hw)
      simp only [deliverAll] at this
      rw [this, e1, totalLen_cons, add_assoc]
    · have hnz : hasNonZero b.1 = true := (hasNonZero_iff b.1).mpr hz
      have e1 : expectedWrites n (b :: bs) =
          (n, b.1) :: expectedWrites (n + b.1.length) bs := by
        simp [expectedWrites, hnz]
      have h0 := hw 0 n b.1 (by rw [e1]; simp)
      simp only [add_zero] at h0
      simp only [deliverAll, List.map_cons, List.cons_append]
      rw [copySparseLoop_write _ _ _ _ _ hn hz h0]
      have := ih ⟨pwrite w.content n.toNat b.1, w.outcome, w.calls ++ [(n, b.1)]⟩
        (n + b.1.length) hn2 (by
          intro k off d hk
          have := hw (k + 1) off d (by rw [e1]; simpa using hk)
          simp only [List.length_append, List.length_singleton]
          rw [← this]
          congr 1
          omega)
      simp only [deliverAll] at this
      rw [this, e1, totalLen_cons, add_assoc]
      simp [applyWrites]


theorem expectedWrites_append {bufSize : Nat} (n : Int) (xs ys : List (Block bufSize)) :
    expectedWrites n (xs ++ ys) = expectedWrites n xs ++ expectedWrites (n + totalLen xs) ys := by
  induction xs generalizing n with
  | nil => simp [expectedWrites, totalLen]
  | cons b bs ih =>
    rw [List.cons_append]
    simp only [expectedWrites, ih, totalLen_cons, List.append_assoc, add_assoc]

theorem expectedWrites_zero {bufSize : Nat} (n : Int) (bs : List (Block bufSize))
    (hz : ∀ b ∈ bs, ∀ x ∈ b.1, x = 0) : expectedWrites n bs = [] := by
  induction bs generalizing n with
  | nil => rfl
  | cons b bs ih =>
    have hb : hasNonZero b.1 = false := by
      rw [Bool.eq_false_iff]
      intro hc
      simp only [hasNonZero, List.any_eq_true, bne_iff_ne] at hc
      obtain ⟨x, hx, hne⟩ := hc
      exact hne (hz b (List.mem_cons_self _ _) x hx)
    simp only [expectedWrites, hb, Bool.false_eq_true, if_false, List.nil_append]
    exact ih _ fun c hc => hz c (List.mem_cons_of_mem _ hc)

theorem deliver_eq {bufSize : Nat} (fin : Option Error) (bs : List (Block bufSize))
    (b : Block bufSize) :
    deliver fin (bs ++ [b]) = deliverAll bs ++ [⟨b.1, fin, b.2⟩] := by
  induction bs with
  | nil => rfl
  | cons c cs ih =>
    cases cs with
    | nil => rfl
    | cons c2 cs =>
      rw [List.cons_append] at ih
      rw [List.cons_append, List.cons_append]
      simp only [deliver, deliverAll, List.map_cons, List.cons_append] at ih ⊢
      rw [ih]

/-- The last iteration of the loop: a block read with a nil or end-of-stream
error whose write, if one is needed, completes fully, followed by the
remaining reads `r`, of which at most the first is consumed when it is the
final `(0, io.EOF)`. -/
theorem copySparseLoop_last {bufSize : Nat} (d : List Byte) (h : d.length ≤ bufSize)
    (fin : Option Error) (hfin : ∀ e, fin = some e → e.isEOF = true)
    (w : OsFile) (n : Int) (hn : 0 ≤ n)
    (hw : hasNonZero d = true → w.outcome w.calls.length d n = ((d.length : Int), none)) :
    copySparseLoop [⟨d, fin, h⟩] w n =
      ⟨n + d.length, none,
        ⟨applyWrites w.content (if hasNonZero d then [(n, d)] else []), w.outcome,
          w.calls ++ (if hasNonZero d then [(n, d)] else [])⟩, []⟩ := by
  by_cases hz : d = List.replicate d.length 0
  · have hnz : hasNonZero d = false := by
      rw [Bool.eq_false_iff]
      intro hc
      exact (hasNonZero_iff d).mp hc hz
    rw [copySparseLoop]
    cases fin with
    | none => simp [← hz, hnz, copySparseLoop, applyWrites, eofSeen]
    | some e =>
      have he := hfin e rfl
      simp [← hz, hnz, applyWrites, he, eofSeen]
  · have hnz : hasNonZero d = true := (hasNonZero_iff d).mpr hz
    have hd : d ≠ [] := by
      intro h0
      subst h0
      exact hz rfl
    have hpos : (0 : Int) < d.length := by
      have := List.length_pos.mpr hd
      omega
    rw [copySparseLoop]
    cases fin with
    | none =>
      simp [hz, hnz, OsFile.WriteAt, not_lt.mpr hn, hw hnz, hpos, copySparseLoop, applyWrites, eofSeen]
    | some e =>
      have he := hfin e rfl
      simp [hz, hnz, OsFile.WriteAt, not_lt.mpr hn, hw hnz, hpos, applyWrites, he, eofSeen]

/-- A run of the whole stream `bs`, the last block delivered with `fin`, on a
file whose writes complete fully. -/
theorem copySparseLoop_deliver {bufSize : Nat} (bs : List (Block bufSize))
    (fin : Option Error) (hfin : ∀ e, fin = some e → e.isEOF = true)
    (w : OsFile) (n : Int) (hn : 0 ≤ n)
    (hw : ∀ k off b, (expectedWrites n bs)[k]? = some (off, b) →
      w.outcome (w.calls.length + k) b off = ((b.length : Int), none)) :
    copySparseLoop (deliver fin bs) w n =
      ⟨n + totalLen bs, none,
        ⟨applyWrites w.content (expectedWrites n bs), w.outcome,
          w.calls ++ expectedWrites n bs⟩, []⟩ := by
  rcases List.eq_nil_or_concat bs with h0 | ⟨pre, b, hb⟩
  · subst h0
    simp [deliver, copySparseLoop, expectedWrites, applyWrites, totalLen]
  · subst hb
    rw [List.concat_eq_append] at hw ⊢
    have hexp := expectedWrites_append n pre [b]
    have hone : expectedWrites (n + totalLen pre) [b] =
        if hasNonZero b.1 then [(n + totalLen pre, b.1)] else [] := by
      simp [expectedWrites]
    have hn2 : 0 ≤ n + totalLen pre := by
      have := totalLen_nonneg pre
      omega
    rw [deliver_eq, copySparseLoop_deliverAll pre _ w n hn (by
      intro k off d hk
      apply hw
      rw [hexp, List.getElem?_append_left]
      · exact hk
      · exact (List.getElem?_eq_some_iff.mp hk).1)]
    rw [copySparseLoop_last _ _ fin hfin _ _ hn2 (by
      intro hnz
      have := hw (expectedWrites n pre).length (n + totalLen pre) b.1 (by
        rw [hexp, hone, hnz]
        simp)
      simpa using this)]
    have ht : totalLen (pre ++ [b]) = totalLen pre + b.1.length := by
      simp [totalLen]
    simp only [hexp, hone, applyWrites_append, ht, add_assoc, List.append_assoc]


/-- The iteration in which a write fails: a block with a non-zero byte, read
with a nil or end-of-stream error, whose write reports an error or fewer
bytes than the block has. -/
theorem copySparseLoop_write_fails {bufSize : Nat} (d : List Byte) (h : d.length ≤ bufSize)
    (rErr : Option Error) (hr : ∀ e, rErr = some e → e.isEOF = true)
    (rest : Reader bufSize) (w : OsFile) (n : Int) (hn : 0 ≤ n)
    (hnz : hasNonZero d = true) (wN : Int) (wErr : Option Error)
    (hout : w.outcome w.calls.length d n = (wN, wErr))
    (hfail : wErr ≠ none ∨ wN < d.length) :
    copySparseLoop (⟨d, rErr, h⟩ :: rest) w n =
      ⟨n + max wN 0,
        some (writeFailure wErr d.length wN),
        ⟨pwrite w.content n.toNat (d.take wN.toNat), w.outcome, w.calls ++ [(n, d)]⟩,
        rest⟩ := by
  have hz : ¬ d = List.replicate d.length 0 := (hasNonZero_iff d).mp hnz
  have hmax : (if wN > 0 then n + wN else n) = n + max wN 0 := by
    split
    · rw [max_eq_left (by omega)]
    · rw [max_eq_right (by omega)]
      omega
  have hr2 : ¬ (rErr.isSome = true ∧ eofSeen rErr = false) := by
    cases rErr with
    | none => simp
    | some e => simp [eofSeen, hr e rfl]
  rw [copySparseLoop]
  dsimp only
  rw [if_neg hr2]
  simp only [hz, if_false, OsFile.WriteAt, not_lt.mpr hn, hout, hmax, writeFailure]
  cases wErr with
  | some e => rfl
  | none =>
    have hlt : wN < d.length := by
      rcases hfail with h1 | h1
      · exact absurd rfl h1
      · exact h1
    have hne : wN ≠ (d.length : Int) := by omega
    simp [hne]

/-- C7. Sparse Copier write trace: for a stream delivered as the blocks `bs`
(each at most `bufSize` bytes long, possibly empty), the last one read with a
nil error or with an end-of-stream error, and a file on which every
positioned write completes fully, `copySparse` returns the total length of
the blocks and a nil error, and the writes it issues are, in order, one per
block that contains a non-zero byte, with that block's bytes at the offset
given by the total length of the blocks before it.  In particular a stream
of zero bytes causes no write, and one block with a non-zero byte between
blocks of zeros causes exactly one write. -/
theorem copySparse_write_trace {bufSize : Nat} (bs : List (Block bufSize))
    (fin : Option Error) (hfin : ∀ e, fin = some e → e.isEOF = true) (w : OsFile)
    (hw : ∀ k b off, w.outcome k b off = ((b.length : Int), none)) :
    (copySparse w (deliver fin bs)).n = totalLen bs ∧
    (copySparse w (deliver fin bs)).err = none ∧
    (copySparse w (deliver fin bs)).w.calls = w.calls ++ expectedWrites 0 bs ∧
    ((∀ b ∈ bs, ∀ x ∈ b.1, x = 0) → (copySparse w (deliver fin bs)).w.calls = w.calls) ∧
    (∀ pre post b, bs = pre ++ b :: post → hasNonZero b.1 = true →
      (∀ c ∈ pre, ∀ x ∈ c.1, x = 0) → (∀ c ∈ post, ∀ x ∈ c.1, x = 0) →
      (copySparse w (deliver fin bs)).w.calls = w.calls ++ [(totalLen pre, b.1)]) := by
  have hrun := copySparseLoop_deliver bs fin hfin w 0 le_rfl (fun k off b _ => hw _ b off)
  have hcalls : (copySparse w (deliver fin bs)).w.calls = w.calls ++ expectedWrites 0 bs := by
    unfold copySparse
    rw [hrun]
  refine ⟨?_, ?_, hcalls, ?_, ?_⟩
  · unfold copySparse
    rw [hrun]
    simp
  · unfold copySparse
    rw [hrun]
  · intro hz
    rw [hcalls, expectedWrites_zero 0 bs hz, List.append_nil]
  · intro pre post b hbs hb hpre hpost
    rw [hcalls, hbs, expectedWrites_append, expectedWrites_zero 0 pre hpre]
    simp only [expectedWrites, hb, if_true, List.nil_append, zero_add]
    rw [expectedWrites_zero _ post hpost]
    rfl

/-- C8. Sparse Copier write failure: after the blocks `pre`, whose writes
completed fully, the write of a block `b` with a non-zero byte at offset
`totalLen pre` reports `(wN, wErr)` with an error or with `wN < len(b)`.  Then
`copySparse` returns a write error, respectively a short-write error, and the
offset plus `wN` (the offset when `wN <= 0`); the reads `rest` that follow are
not consumed and the failing write is the last one issued. -/
theorem copySparse_write_failure {bufSize : Nat} (pre : List (Block bufSize))
    (b : Block bufSize) (rErr : Option Error) (hr : ∀ e, rErr = some e → e.isEOF = true)
    (rest : Reader bufSize) (w : OsFile) (wN : Int) (wErr : Option Error)
    (hpre : ∀ k off d, (expectedWrites 0 pre)[k]? = some (off, d) →
      w.outcome (w.calls.length + k) d off = ((d.length : Int), none))
    (hnz : hasNonZero b.1 = true)
    (hout : w.outcome (w.calls.length + (expectedWrites 0 pre).length) b.1 (totalLen pre)
      = (wN, wErr))
    (hfail : wErr ≠ none ∨ wN < b.1.length) :
    (copySparse w (deliverAll pre ++ ⟨b.1, rErr, b.2⟩ :: rest)).n
      = totalLen pre + (if wN ≤ 0 then 0 else wN) ∧
    (copySparse w (deliverAll pre ++ ⟨b.1, rErr, b.2⟩ :: rest)).err
      = some (writeFailure wErr b.1.length wN) ∧
    (copySparse w (deliverAll pre ++ ⟨b.1, rErr, b.2⟩ :: rest)).r = rest ∧
    (copySparse w (deliverAll pre ++ ⟨b.1, rErr, b.2⟩ :: rest)).w.calls
      = w.calls ++ expectedWrites 0 pre ++ [(totalLen pre, b.1)] := by
  have hn : (0 : Int) ≤ 0 + totalLen pre := by
    have := totalLen_nonneg pre
    omega
  have hrun := copySparseLoop_write_fails b.1 b.2 rErr hr rest
    ⟨applyWrites w.content (expectedWrites 0 pre), w.outcome, w.calls ++ expectedWrites 0 pre⟩
    (0 + totalLen pre) hn hnz wN wErr (by simpa using hout) hfail
  unfold copySparse
  rw [copySparseLoop_deliverAll pre _ w 0 le_rfl hpre, hrun]
  refine ⟨?_, rfl, rfl, ?_⟩
  · show 0 + totalLen pre + max wN 0 = totalLen pre + (if wN ≤ 0 then 0 else wN)
    by_cases h0 : wN ≤ 0
    · rw [if_pos h0, max_eq_right h0]
      omega
    · rw [if_neg h0, max_eq_left (by omega)]
      omega
  · show w.calls ++ expectedWrites 0 pre ++ [(0 + totalLen pre, b.1)] = _
    rw [zero_add]

/-- A `Read` on a stream with bytes left into a non-empty buffer returns at
least one byte. -/
theorem ByteStream.Read_progress (s : ByteStream) (len : Nat) (hlen : 0 < len)
    (hs : s.rest ≠ []) :
    0 < (s.Read len).1.1.length ∧ (s.Read len).1.1.length ≤ len ∧
    (s.Read len).1.1 = s.rest.take (s.Read len).1.1.length ∧
    (s.Read len).2.rest = s.rest.drop (s.Read len).1.1.length ∧
    (s.Read len).2.ready = s.ready ∧ (s.Read len).2.eofWithLast = s.eofWithLast ∧
    ((s.Read len).1.2 = none ∨
      ((s.Read len).1.2 = some Error.eof ∧ (s.Read len).1.1.length = s.rest.length)) := by
  have hpos : 0 < s.rest.length := List.length_pos.mpr hs
  have hk : (List.take (min len (min s.rest.length (s.ready s.rest.length + 1))) s.rest).length
      = min len (min s.rest.length (s.ready s.rest.length + 1)) := by
    rw [List.length_take]
    omega
  unfold ByteStream.Read
  rw [if_neg hs]
  dsimp only
  rw [hk]
  refine ⟨by omega, by omega, rfl, rfl, rfl, rfl, ?_⟩
  split
  · rename_i h
    exact Or.inr ⟨rfl, h.2⟩
  · exact Or.inl rfl

/-- The loop of `io.ReadAll` on a limited reader over a byte stream, entered
with room in the buffer, returns what was read so far followed by the first
`N` bytes that remain in the stream, with a nil error. -/
theorem ReadAllLoop_spec (grow : Nat → Nat) :
    ∀ (fuel : Nat) (l : LimitedReader) (b : List Byte) (cap : Nat),
      b.length < cap → l.R.rest.length < fuel →
      ∃ l2, ReadAllLoop grow fuel l b cap = some ((b ++ l.R.rest.take l.N.toNat, none), l2) := by
  intro fuel
  induction fuel with
  | zero => intro l b cap _ h; omega
  | succ fuel ih =>
    intro l b cap hcap hfuel
    rw [ReadAllLoop]
    by_cases hN : l.N ≤ 0
    · have h0 : l.N.toNat = 0 := by omega
      simp [LimitedReader.Read, hN, h0]
    · by_cases hs : l.R.rest = []
      · simp [LimitedReader.Read, hN, ByteStream.Read, hs]
      · have hlen : 0 < (if ((cap - b.length : Nat) : Int) > l.N then l.N.toNat
            else cap - b.length) := by
          split <;> omega
        have hle : ((if ((cap - b.length : Nat) : Int) > l.N then l.N.toNat
            else cap - b.length : Nat) : Int) ≤ l.N := by
          split <;> omega
        have hle2 : (if ((cap - b.length : Nat) : Int) > l.N then l.N.toNat
            else cap - b.length) ≤ cap - b.length := by
          split <;> omega
        obtain ⟨hp, hq, hdata, hrest, -, -, herr⟩ :=
          l.R.Read_progress _ hlen hs
        generalize hr : l.R.Read (if ((cap - b.length : Nat) : Int) > l.N then l.N.toNat
            else cap - b.length) = r at hp hq hdata hrest herr
        have hRead : l.Read (cap - b.length) = (r.1, { R := r.2, N := l.N - r.1.1.length }) := by
          simp only [LimitedReader.Read, if_neg hN, hr]
        have hsplit : l.R.rest.take l.N.toNat
            = r.1.1 ++ (l.R.rest.drop r.1.1.length).take (l.N - r.1.1.length).toNat := by
          have e : l.N.toNat = r.1.1.length + (l.N - r.1.1.length).toNat := by omega
          rw [e, List.take_add, ← hdata]
        rw [hRead]
        dsimp only
        rcases herr with he | ⟨he, hall⟩
        · rw [he]
          dsimp only
          obtain ⟨l2, h2⟩ := ih { R := r.2, N := l.N - r.1.1.length } (b ++ r.1.1)
            (if (b ++ r.1.1).length = cap then cap + 1 + grow cap else cap)
            (by
              rw [List.length_append]
              split <;> omega)
            (by
              show r.2.rest.length < fuel
              have hpos : 0 < l.R.rest.length := List.length_pos.mpr hs
              rw [hrest, List.length_drop]
              omega)
          refine ⟨l2, ?_⟩
          rw [h2, hsplit]
          simp only [hrest, List.append_assoc]
        · rw [he]
          refine ⟨{ R := r.2, N := l.N - r.1.1.length }, ?_⟩
          simp only [if_true]
          rw [hsplit, hall, List.drop_length, List.take_nil, List.append_nil]

/-- C9. `ReadAtMaximum` reads `n` at maximum: for a reader that yields the
bytes `s.rest` and then plain `io.EOF`, and every `n`, the call returns the
first `min (max n 0) |s.rest|` bytes of the stream with a nil error, so never
more than `n` bytes when `n` is not negative (and none when it is); the error
`exceeded the limit` is not produced even when the stream is longer than
`n`.  Any `fuel` above the length of the stream suffices for the loop of
`io.ReadAll` to return. -/
theorem ReadAtMaximum_reads_at_most (grow : Nat → Nat) (s : ByteStream) (n : Int)
    (fuel : Nat) (hfuel : s.rest.length < fuel) :
    ReadAtMaximum grow fuel s n = some (s.rest.take (max n 0).toNat, none) ∧
    (s.rest.take (max n 0).toNat).length = min (max n 0).toNat s.rest.length ∧
    ((s.rest.take (max n 0).toNat).length : Int) ≤ max n 0 ∧
    (0 ≤ n → ((s.rest.take (max n 0).toNat).length : Int) ≤ n) := by
  obtain ⟨l2, h2⟩ := ReadAllLoop_spec grow fuel ⟨s, n⟩ [] 512 (by simp) hfuel
  have hn : (max n 0).toNat = n.toNat := by
    rcases le_total n 0 with h | h
    · rw [max_eq_right h]
      omega
    · rw [max_eq_left h]
  refine ⟨?_, List.length_take _ _, ?_, ?_⟩
  · unfold ReadAtMaximum ReadAll
    rw [h2, hn]
    simp
  · rw [List.length_take]
    have : 0 ≤ max n 0 := le_max_right _ _
    omega
  · intro h0
    rw [List.length_take, max_eq_left h0]
    omega

/-! ### The file-system calls -/

theorem World.emit_files (w : World) (e : Event) : (w.emit e).files = w.files := rfl

theorem World.put_same (w : World) (p : Path) (c : Option (List Byte)) :
    (w.put p c).files p = c := by
  simp [World.put]

theorem World.put_other (w : World) (p q : Path) (c : Option (List Byte)) (h : q ≠ p) :
    (w.put p c).files q = w.files q := by
  simp [World.put, h]

theorem truncateTo_length (c : List Byte) (n : Nat) : (truncateTo c n).length = n := by
  simp only [truncateTo, List.length_append, List.length_take, List.length_replicate]
  omega

theorem truncateTo_grow (c : List Byte) (n : Nat) (h : c.length ≤ n) :
    truncateTo c n = c ++ List.replicate (n - c.length) 0 := by
  simp only [truncateTo]
  rw [List.take_of_length_le h]

/-- The temp file never has the name of the destination. -/
theorem tempName_ne (dest : Path) (rand : String) : tempName dest rand ≠ dest := by
  intro h
  have hl := congrArg String.length h
  simp only [tempName, String.length_append] at hl
  have h6 : (".lima-" : String).length = 6 := by decide
  have h4 : (".tmp" : String).length = 4 := by decide
  omega

theorem qcow2Type_ne_rawType : qcow2Type ≠ rawType := by decide

/-- The reads of a section reader do not depend on the backing-file field. -/
theorem sectionReads_backingFile (img : Image) (bf2 : Option String) (bufSize : Nat)
    (limit : Int) (fuel off : Nat) :
    sectionReads { img with backingFile := bf2 } bufSize limit fuel off
      = sectionReads img bufSize limit fuel off := by
  induction fuel generalizing off with
  | zero => rfl
  | succ fuel ih =>
    have hR : ∀ o l, Image.ReadAt { img with backingFile := bf2 } o l = Image.ReadAt img o l :=
      fun _ _ => rfl
    simp only [sectionReads, hR, ih]

/-- C2. Size precondition: when the source opens and its format is detected,
a requested size `T` below the image's logical size makes `ConvertToRaw`
return the size-constraint error, whatever `Readable()` and the backing-file
field are, and the file system is exactly as before: the bytes of every
file are the same and no mutating call has been issued. -/
theorem ConvertToRaw_size_too_small (env : Env) (w : World) (source dest : Path) (T : Int)
    (allow : Bool) (c : List Byte) (img : Image)
    (hsrc : w.files source = some c) (hopen : env.openErr = none)
    (hdet : env.detect c = .ok img) (hT : T < img.size) :
    ConvertToRaw env w source dest (some T) allow
      = (some (Error.sizeTooSmall T img.size source), w) := by
  simp [ConvertToRaw, tooSmall, hsrc, hopen, hdet, hT]

/-- C3. Backing-file guard: for a source that opens as a qcow2 image whose
backing-file field is a non-empty string, `ConvertToRaw` without
`allowSourceWithBackingFile` returns a non-nil error for every destination
and requested size and leaves the file system exactly as it was (no temp
file, no mutating call).  With `allowSourceWithBackingFile`, a readable image
and an admissible size, the call is the decode-and-copy path
`convertImageToRaw`, whose result does not depend on the backing-file field. -/
theorem ConvertToRaw_backing_file_guard (env : Env) (w : World) (source dest : Path)
    (size : Option Int) (c : List Byte) (img : Image) (bf : String)
    (hsrc : w.files source = some c) (hopen : env.openErr = none)
    (hdet : env.detect c = .ok img) (htype : img.type = qcow2Type)
    (hbf : img.backingFile = some bf) (hne : bf ≠ "") :
    (∃ e, ConvertToRaw env w source dest size false = (some e, w)) ∧
    (img.readable = none → (∀ s, size = some s → img.size ≤ s) →
      ConvertToRaw env w source dest size true = convertImageToRaw env w img dest size) ∧
    (∀ bf2, convertImageToRaw env w { img with backingFile := bf2 } dest size
      = convertImageToRaw env w img dest size) := by
  have hqr := qcow2Type_ne_rawType
  refine ⟨?_, ?_, ?_⟩
  rotate_left 2
  · intro bf2
    simp only [convertImageToRaw, convertImageToRawBody, NewSectionReader,
      sectionReads_backingFile]
  · simp only [ConvertToRaw, tooSmall, hsrc, hopen, hdet]
    cases size with
    | none =>
      cases hr : img.readable with
      | some e => exact ⟨_, rfl⟩
      | none => simp [hqr, htype, hbf, hne]
    | some s =>
      by_cases hs : s < img.size
      · simp [hs]
      · cases hr : img.readable with
        | some e => simp [hs]
        | none => simp [hs, hqr, htype, hbf, hne]
  · intro hr hs
    simp only [ConvertToRaw, tooSmall, hsrc, hopen, hdet]
    cases size with
    | none => simp [hr, hqr, htype]
    | some s =>
      have := hs s rfl
      simp [not_lt.mpr this, hr, hqr, htype]

/-- C6. Same-path raw no-op: when `source` opens as a raw image and is also the
destination, `ConvertToRaw(source, source, nil, false)` returns no error and
leaves the file system exactly as it was: the bytes of every file are the
same and no mutating call (copy, temp file, truncate, rename, remove) has
been issued. -/
theorem ConvertToRaw_same_path_raw_noop (env : Env) (w : World) (source : Path)
    (c : List Byte) (img : Image)
    (hsrc : w.files source = some c) (hopen : env.openErr = none)
    (hdet : env.detect c = .ok img) (htype : img.type = rawType)
    (hread : img.readable = none) (hclose : env.closeSrcErr = none) :
    ConvertToRaw env w source source none false = (none, w) := by
  simp [ConvertToRaw, tooSmall, hsrc, hopen, hdet, htype, hread, hclose, convertRawToRaw]

/-- A call of `expand` on an existing file in which no call fails. -/
theorem expand_ok (env : Env) (w : World) (image : Path) (size : Int) (c : List Byte)
    (hfile : w.files image = some c) (hsize : 0 ≤ size)
    (ho : env.expandOpenErr = none) (ht : env.expandTruncateErr = none)
    (hc : env.expandCloseErr = none) :
    expand env w image size =
      (none, ((w.emit (.expand image size (some c.length))).emit (.truncate image size)).put
        image (some (truncateTo c size.toNat))) := by
  simp only [expand, World.emit_files, ho, Truncate, not_lt.mpr hsize, if_false, ht, hc, hfile,
    Option.map]

/-! ### The section reader and the copy of an image -/

theorem Image.bytes_length (img : Image) (off k : Nat) : (img.bytes off k).length = k := by
  simp [Image.bytes]

theorem Image.bytes_add (img : Image) (off a b : Nat) :
    img.bytes off (a + b) = img.bytes off a ++ img.bytes (off + a) b := by
  simp only [Image.bytes, List.range_add, List.map_append, List.map_map]
  congr 1
  apply List.map_congr_left
  intro i _
  simp [Nat.add_assoc]

theorem Image.ReadAt_full (img : Image) (off len : Nat) (h : img.readAt off len = .full)
    (hle : (img.bytes off len).length ≤ len) :
    img.ReadAt off len = ⟨img.bytes off len, none, hle⟩ := by
  simp only [Image.ReadAt, h]

theorem Image.ReadAt_stopped (img : Image) (off len n : Nat) (e : Error)
    (h : img.readAt off len = .stopped n e)
    (hle : (img.bytes off (min n len)).length ≤ len) :
    img.ReadAt off len = ⟨img.bytes off (min n len), some e, hle⟩ := by
  simp only [Image.ReadAt, h]

/-- One step of the section reader, for a read known to return `rd`. -/
theorem sectionReads_succ (img : Image) (bufSize : Nat) (limit : Int) (fuel off m : Nat)
    (h : ¬ limit ≤ off) (hm : m = min bufSize (limit - off).toNat) (rd : ReadResult m)
    (hrd : img.ReadAt off m = rd) (hle : rd.data.length ≤ bufSize) :
    sectionReads img bufSize limit (fuel + 1) off
      = ⟨rd.data, rd.err, hle⟩ ::
        (if rd.err.isSome then [] else sectionReads img bufSize limit fuel (off + rd.data.length)) := by
  subst hm
  subst hrd
  rw [sectionReads, if_neg h]

/-- The bytes of the temp file once the first `off` bytes of an image of `S`
bytes have been copied into it. -/
theorem pwrite_step (img : Image) (S off m : Nat) (h : off + m ≤ S) :
    applyWrites (img.bytes 0 off ++ List.replicate (S - off) 0)
        (if hasNonZero (img.bytes off m) then [((off : Int), img.bytes off m)] else [])
      = img.bytes 0 (off + m) ++ List.replicate (S - (off + m)) 0 := by
  have hsplit : List.replicate (S - off) (0 : Byte)
      = List.replicate m 0 ++ List.replicate (S - (off + m)) 0 := by
    rw [← List.replicate_add]
    congr 1
    omega
  by_cases hnz : hasNonZero (img.bytes off m) = true
  · have hne : img.bytes off m ≠ [] := by
      intro h0
      rw [h0] at hnz
      simp [hasNonZero] at hnz
    rw [if_pos hnz]
    simp only [applyWrites, Int.toNat_ofNat, pwrite, if_neg hne]
    have hl : (img.bytes 0 off ++ List.replicate (S - off) (0 : Byte)).length = S := by
      rw [List.length_append, Image.bytes_length, List.length_replicate]
      omega
    rw [hl, Nat.sub_eq_zero_of_le (by omega : off ≤ S), List.replicate_zero, List.append_nil,
      List.take_left' (Image.bytes_length img 0 off), Image.bytes_length,
      List.drop_append_eq_append_drop, Image.bytes_length,
      List.drop_of_length_le (by rw [Image.bytes_length]; omega), List.nil_append, hsplit,
      show off + m - off = m by omega, List.drop_left' (List.length_replicate _ _),
      Image.bytes_add, zero_add, List.append_assoc]
  · have hz : img.bytes off m = List.replicate m 0 := by
      by_contra hc
      apply hnz
      rw [hasNonZero_iff, Image.bytes_length]
      exact hc
    rw [if_neg hnz]
    simp only [applyWrites]
    rw [hsplit, Image.bytes_add, zero_add, hz, List.append_assoc]

/-- Copying an image whose reads all succeed through `copySparse` into a file
that holds the first `off` decoded bytes followed by zeros, on which every
write completes fully, yields the decoded bytes of the whole image. -/
theorem copySparseLoop_section (img : Image) (bufSize S : Nat) (hbuf : 0 < bufSize)
    (oc : Nat → List Byte → Int → Int × Option Error)
    (hoc : ∀ k b off, oc k b off = ((b.length : Int), none))
    (hreads : ∀ off len, off + len ≤ S → img.readAt off len = .full ∨
      ∃ n e, img.readAt off len = .stopped n e ∧ e.isEOF = true ∧ len ≤ n ∧ off + len = S) :
    ∀ (fuel off : Nat), off ≤ S → S - off ≤ fuel → ∀ calls : List (Int × List Byte),
      ∃ calls2 : List (Int × List Byte),
        copySparseLoop (sectionReads img bufSize S fuel off)
            ⟨img.bytes 0 off ++ List.replicate (S - off) 0, oc, calls⟩ off
          = ⟨S, none, ⟨img.bytes 0 S, oc, calls2⟩, []⟩ := by
  intro fuel
  induction fuel with
  | zero =>
    intro off h1 h2 calls
    have : off = S := by omega
    subst this
    exact ⟨calls, by simp [sectionReads, copySparseLoop]⟩
  | succ fuel ih =>
    intro off h1 h2 calls
    by_cases hoff : (S : Int) ≤ off
    · have : off = S := by omega
      subst this
      exact ⟨calls, by simp [sectionReads, copySparseLoop]⟩
    · have hm : ((S : Int) - off).toNat = S - off := by omega
      have hmpos : 0 < min bufSize (S - off) := by
        rw [Nat.lt_min]
        omega
      have hmle : off + min bufSize (S - off) ≤ S := by
        have := Nat.min_le_right bufSize (S - off)
        omega
      have hlen : (img.bytes off (min bufSize (S - off))).length ≤ min bufSize (S - off) := by
        rw [Image.bytes_length]
      have hstep := pwrite_step img S off (min bufSize (S - off)) hmle
      have hm2 : min bufSize (S - off) = min bufSize ((S : Int) - off).toNat := by rw [hm]
      rcases hreads off (min bufSize (S - off)) hmle with hfull | ⟨n, e, hst, he, hn, hend⟩
      · rw [sectionReads_succ img bufSize S fuel off _ hoff hm2 _
          (Image.ReadAt_full img off _ hfull hlen) (le_trans hlen (Nat.min_le_left _ _))]
        simp only [Option.isSome_none, Bool.false_eq_true, if_false, Image.bytes_length]
        obtain ⟨calls2, h2⟩ := ih (off + min bufSize (S - off)) hmle (by omega)
          (calls ++ (if hasNonZero (img.bytes off (min bufSize (S - off)))
            then [((off : Int), img.bytes off (min bufSize (S - off)))] else []))
        refine ⟨calls2, ?_⟩
        rw [← h2, ← hstep]
        have hrun := copySparseLoop_deliverAll
          [(⟨img.bytes off (min bufSize (S - off)),
            le_trans hlen (Nat.min_le_left _ _)⟩ : Block bufSize)]
          (sectionReads img bufSize S fuel (off + min bufSize (S - off)))
          ⟨img.bytes 0 off ++ List.replicate (S - off) 0, oc, calls⟩ off (by omega)
          (fun k o b _ => hoc _ b o)
        simp only [deliverAll, List.map_cons, List.map_nil, List.singleton_append, expectedWrites,
          List.append_nil, totalLen, List.sum_cons, List.sum_nil, add_zero,
          Image.bytes_length] at hrun
        rw [hrun]
        push_cast
        rfl
      · have hmin : min n (min bufSize (S - off)) = min bufSize (S - off) :=
          Nat.min_eq_right hn
        have hlen2 : (img.bytes off (min n (min bufSize (S - off)))).length
            ≤ min bufSize (S - off) := by
          rw [Image.bytes_length, hmin]
        rw [sectionReads_succ img bufSize S fuel off _ hoff hm2 _
          (Image.ReadAt_stopped img off _ n e hst hlen2)
          (le_trans hlen2 (Nat.min_le_left _ _))]
        simp only [Option.isSome_some, if_true]
        have hrun := copySparseLoop_last (img.bytes off (min bufSize (S - off)))
          (le_trans hlen (Nat.min_le_left _ _)) (some e) (fun e2 h2 => by
            cases h2
            exact he)
          ⟨img.bytes 0 off ++ List.replicate (S - off) 0, oc, calls⟩ off (by omega)
          (fun _ => hoc _ _ _)
        refine ⟨calls ++ (if hasNonZero (img.bytes off (min bufSize (S - off)))
            then [((off : Int), img.bytes off (min bufSize (S - off)))] else []), ?_⟩
        simp only [hmin]
        rw [hrun]
        simp only [hstep, hend, Image.bytes_length, Nat.sub_self, List.replicate_zero,
          List.append_nil]
        congr 1
        exact_mod_cast hend

theorem CreateTemp_ok (env : Env) (w : World) (p : Path) (hfresh : w.files p = none)
    (hct : env.createTempErr = none) :
    CreateTemp env w p = (none, (w.emit (.createTemp p)).put p (some [])) := by
  simp [CreateTemp, hct, hfresh]

theorem Truncate_ok (w : World) (p : Path) (size : Int) (c : List Byte)
    (hfile : w.files p = some c) (hsize : 0 ≤ size) :
    Truncate none w p size
      = (none, (w.emit (.truncate p size)).put p (some (truncateTo c size.toNat))) := by
  simp [Truncate, not_lt.mpr hsize, hfile]

theorem Rename_ok (env : Env) (w : World) (oldpath newpath : Path) (c : List Byte)
    (hfile : w.files oldpath = some c) (hrn : env.renameErr = none) :
    Rename env w oldpath newpath
      = (none, ((w.emit (.rename oldpath newpath)).put oldpath none).put newpath (some c)) := by
  simp [Rename, hrn, hfile]

/-- The decode-and-copy path when no call fails: the temp file is created,
filled with the decoded bytes, resized if asked, and renamed onto `dest`. -/
theorem convertImageToRaw_ok (env : Env) (w : World) (img : Image) (dest : Path)
    (size : Option Int) (S : Nat) (hS : img.size = S)
    (hsize : ∀ T, size = some T → (S : Int) ≤ T)
    (hreads : ∀ off len, off + len ≤ S → img.readAt off len = .full ∨
      ∃ n e, img.readAt off len = .stopped n e ∧ e.isEOF = true ∧ len ≤ n ∧ off + len = S)
    (hfresh : w.files (tempName dest env.rand) = none)
    (hct : env.createTempErr = none) (htr : env.truncateErr = none)
    (hbar : env.barErr = none)
    (hwr : ∀ k b off, env.writeAt k b off = ((b.length : Int), none))
    (hcl : env.closeTmpErr = none) (ho : env.expandOpenErr = none)
    (ht : env.expandTruncateErr = none) (hc : env.expandCloseErr = none)
    (hrn : env.renameErr = none) :
    (convertImageToRaw env w img dest size).1 = none ∧
    (convertImageToRaw env w img dest size).2.files dest
      = some (img.bytes 0 S ++ List.replicate ((size.getD S).toNat - S) 0) ∧
    (convertImageToRaw env w img dest size).2.files (tempName dest env.rand) = none ∧
    (∀ p, p ≠ dest → p ≠ tempName dest env.rand →
      (convertImageToRaw env w img dest size).2.files p = w.files p) := by
  have htmp := tempName_ne dest env.rand
  simp only [convertImageToRaw]
  generalize tempName dest env.rand = tmp at *
  obtain ⟨calls2, hcopy⟩ := copySparseLoop_section img bufSize S (by decide) env.writeAt hwr hreads
    S 0 (Nat.zero_le _) (by omega) []
  have hb0 : img.bytes 0 0 = [] := rfl
  simp only [hb0, List.nil_append, Nat.sub_zero, Nat.cast_zero] at hcopy
  have hbody : ∃ w3 : World, convertImageToRawBody env ((w.emit (.createTemp tmp)).put tmp (some []))
      img dest tmp size = (none, w3) ∧
      w3.files dest = some (img.bytes 0 S ++ List.replicate ((size.getD S).toNat - S) 0) ∧
      (∀ p, p ≠ dest → p ≠ tmp → w3.files p = w.files p) := by
    unfold convertImageToRawBody
    rw [htr, hS, Truncate_ok _ tmp S [] (World.put_same _ _ _) (by omega)]
    simp only [hbar, World.put_same, Option.getD_some, truncateTo, List.take_nil, List.nil_append,
      List.length_nil, Nat.sub_zero, Int.toNat_ofNat, NewSectionReader, copySparse, hcopy, hcl]
    cases size with
    | none =>
      simp only [Option.getD_none, Int.toNat_ofNat, Nat.sub_self, List.replicate_zero,
        List.append_nil]
      rw [Rename_ok env _ tmp dest (img.bytes 0 S) (by simp [World.put]) hrn]
      refine ⟨_, rfl, World.put_same _ _ _, ?_⟩
      intro p hp1 hp2
      simp [World.put, World.emit, hp1, hp2]
    | some T =>
      have hT := hsize T rfl
      have hlen : (img.bytes 0 S).length ≤ T.toNat := by
        rw [Image.bytes_length]
        omega
      simp only [Option.getD_some]
      rw [expand_ok env _ tmp T (img.bytes 0 S) (by simp [World.put]) (by omega) ho ht hc,
        truncateTo_grow _ _ hlen, Image.bytes_length]
      simp only []
      rw [Rename_ok env _ tmp dest _ (World.put_same _ _ _) hrn]
      refine ⟨_, rfl, World.put_same _ _ _, ?_⟩
      intro p hp1 hp2
      simp [World.put, World.emit, hp1, hp2]
  obtain ⟨w3, hb, hdest, hframe⟩ := hbody
  rw [CreateTemp_ok env w tmp hfresh hct]
  simp only [hb, RemoveAll]
  refine ⟨trivial, ?_, World.put_same _ _ _, ?_⟩
  · rw [World.put_other _ _ _ _ (Ne.symm htmp), World.emit_files]
    exact hdest
  · intro p hp1 hp2
    rw [World.put_other _ _ _ _ hp2, World.emit_files]
    exact hframe p hp1 hp2

/-- C1. Generic decode-and-copy path: for a source that opens as a readable
qcow2 image of logical size `S` with an empty backing-file field (or with
`allowSourceWithBackingFile`), and a requested size that is absent or at
least `S`, if no call fails then `ConvertToRaw` returns nil and afterwards
`dest` is a file of length `S` (`T` when a size `T` was requested) whose bytes
`[0, S)` are the decoded bytes of the image and whose bytes `[S, T)` are zero;
the temp file is gone and no other file has changed.  The paths `source` and
`dest` may be equal. -/
theorem ConvertToRaw_decode_and_copy (env : Env) (w : World) (source dest : Path)
    (size : Option Int) (allow : Bool) (c : List Byte) (img : Image) (S : Nat)
    (hsrc : w.files source = some c) (hopen : env.openErr = none)
    (hdet : env.detect c = .ok img) (htype : img.type = qcow2Type)
    (hbf : img.backingFile = some "" ∨ allow = true) (hread : img.readable = none)
    (hS : img.size = S) (hsize : ∀ T, size = some T → (S : Int) ≤ T)
    (hreads : ∀ off len, off + len ≤ S → img.readAt off len = .full ∨
      ∃ n e, img.readAt off len = .stopped n e ∧ e.isEOF = true ∧ len ≤ n ∧ off + len = S)
    (hfresh : w.files (tempName dest env.rand) = none)
    (hct : env.createTempErr = none) (htr : env.truncateErr = none)
    (hbar : env.barErr = none)
    (hwr : ∀ k b off, env.writeAt k b off = ((b.length : Int), none))
    (hcl : env.closeTmpErr = none) (ho : env.expandOpenErr = none)
    (ht : env.expandTruncateErr = none) (hc : env.expandCloseErr = none)
    (hrn : env.renameErr = none) :
    (ConvertToRaw env w source dest size allow).1 = none ∧
    (ConvertToRaw env w source dest size allow).2.files dest
      = some (img.bytes 0 S ++ List.replicate ((size.getD S).toNat - S) 0) ∧
    ((img.bytes 0 S ++ List.replicate ((size.getD S).toNat - S) 0).length : Int)
      = size.getD S ∧
    (img.bytes 0 S ++ List.replicate ((size.getD S).toNat - S) 0).take S = img.bytes 0 S ∧
    (∀ x ∈ (img.bytes 0 S ++ List.replicate ((size.getD S).toNat - S) 0).drop S, x = 0) ∧
    (∀ i, i < S → (img.bytes 0 S)[i]? = some (img.byteAt i)) ∧
    (ConvertToRaw env w source dest size allow).2.files (tempName dest env.rand) = none ∧
    (∀ p, p ≠ dest → p ≠ tempName dest env.rand →
      (ConvertToRaw env w source dest size allow).2.files p = w.files p) := by
  have hrun : ConvertToRaw env w source dest size allow
      = convertImageToRaw env w img dest size := by
    have hqr := qcow2Type_ne_rawType
    have hsz : tooSmall size img.size = none := by
      cases size with
      | none => rfl
      | some s =>
        have := hsize s rfl
        simp only [tooSmall, hS, not_lt.mpr this, if_false]
    simp only [ConvertToRaw, hsrc, hopen, hdet, hsz, hread, htype, hqr, if_false, if_true]
    rcases hbf with h | h
    · cases allow <;> simp [h]
    · simp [h]
  rw [hrun]
  obtain ⟨h1, h2, h3, h4⟩ := convertImageToRaw_ok env w img dest size S hS hsize hreads hfresh hct
    htr hbar hwr hcl ho ht hc hrn
  have hle : (S : Int) ≤ size.getD S := by
    cases size with
    | none => exact le_rfl
    | some T => exact hsize T rfl
  refine ⟨h1, h2, ?_, ?_, ?_, ?_, h3, h4⟩
  · rw [List.length_append, List.length_replicate, Image.bytes_length]
    omega
  · rw [List.take_left' (Image.bytes_length img 0 S)]
  · intro x hx
    rw [List.drop_left' (Image.bytes_length img 0 S)] at hx
    exact (List.mem_replicate.mp hx).2
  · intro i hi
    simp [Image.bytes, hi]

/-! ### Lengths and logs -/

theorem pwrite_length (c : List Byte) (off : Nat) (b : List Byte)
    (h : off + b.length ≤ c.length) : (pwrite c off b).length = c.length := by
  unfold pwrite
  split
  · rfl
  · simp only [List.length_append, List.length_take, List.length_replicate, List.length_drop]
    omega

theorem Reader.total_cons {bufSize : Nat} (rd : ReadResult bufSize) (r : Reader bufSize) :
    Reader.total (rd :: r) = rd.data.length + Reader.total r := by
  simp [Reader.total]

theorem Reader.total_nonneg {bufSize : Nat} (r : Reader bufSize) : 0 ≤ Reader.total r := by
  induction r with
  | nil => simp [Reader.total]
  | cons rd r ih =>
    rw [Reader.total_cons]
    omega

/-- A positioned write inside the file does not change its length. -/
theorem OsFile.WriteAt_length (w : OsFile) (d : List Byte) (n : Int) (hn : 0 ≤ n)
    (h : n + d.length ≤ w.content.length) :
    (w.WriteAt d n).2.content.length = w.content.length := by
  simp only [OsFile.WriteAt, not_lt.mpr hn, if_false]
  apply pwrite_length
  rw [List.length_take]
  omega

/-- The sparse copy does not change the length of a file that is at least as
long as the stream. -/
theorem copySparseLoop_length {bufSize : Nat} (r : Reader bufSize) :
    ∀ (w : OsFile) (n : Int), 0 ≤ n → n + Reader.total r ≤ w.content.length →
      (copySparseLoop r w n).w.content.length = w.content.length := by
  induction r with
  | nil =>
    intro w n _ _
    simp [copySparseLoop]
  | cons rd r ih =>
    intro w n hn hle
    rw [Reader.total_cons] at hle
    have htot := Reader.total_nonneg r
    have hwl := OsFile.WriteAt_length w rd.data n hn (by omega)
    rw [copySparseLoop]
    dsimp only
    split
    · rfl
    · split
      · split
        · rfl
        · exact ih w _ (by omega) (by omega)
      · generalize w.WriteAt rd.data n = wr at hwl
        split
        · exact hwl
        · split
          · exact hwl
          · rename_i hwN
            have hwN2 : wr.1.1 = rd.data.length := not_not.mp hwN
            split
            · exact hwl
            · rw [ih wr.2 _ (by split <;> omega) (by
                rw [hwl, hwN2]
                split <;> omega)]
              exact hwl

/-- The reads of a section reader return at most `limit - off` bytes. -/
theorem sectionReads_total (img : Image) (bufSize : Nat) (limit : Int) :
    ∀ (fuel off : Nat), (off : Int) ≤ limit →
      (off : Int) + Reader.total (sectionReads img bufSize limit fuel off) ≤ limit := by
  intro fuel
  induction fuel with
  | zero =>
    intro off h
    simp [sectionReads, Reader.total, h]
  | succ fuel ih =>
    intro off h
    rw [sectionReads]
    split
    · simp [Reader.total, h]
    · rename_i hlt
      dsimp only
      have hle := (img.ReadAt off (min bufSize (limit - off).toNat)).le
      have hm : ((min bufSize (limit - off).toNat : Nat) : Int) ≤ limit - off := by
        have := Nat.min_le_right bufSize (limit - off).toNat
        omega
      rw [Reader.total_cons]
      dsimp only
      split
      · simp only [Reader.total, List.map_nil, List.sum_nil, add_zero]
        omega
      · have := ih (off + (img.ReadAt off (min bufSize (limit - off).toNat)).data.length)
          (by push_cast; omega)
        push_cast at this
        omega

theorem Steps.refl (Q : Event → Prop) (tmp : Path) (w : World) : Steps Q tmp w w :=
  ⟨fun _ _ => rfl, [], by simp, by simp⟩

theorem Steps.trans {Q : Event → Prop} {tmp : Path} {w1 w2 w3 : World}
    (h12 : Steps Q tmp w1 w2) (h23 : Steps Q tmp w2 w3) : Steps Q tmp w1 w3 := by
  obtain ⟨f12, e12, l12, q12⟩ := h12
  obtain ⟨f23, e23, l23, q23⟩ := h23
  refine ⟨fun p hp => (f23 p hp).trans (f12 p hp), e12 ++ e23, ?_, ?_⟩
  · rw [l23, l12, List.append_assoc]
  · intro ev hev
    rcases List.mem_append.mp hev with h | h
    · exact q12 ev h
    · exact q23 ev h

theorem Steps.emit (Q : Event → Prop) (tmp : Path) (w : World) (e : Event)
    (hp : e.path = tmp) (hq : Q e) : Steps Q tmp w (w.emit e) :=
  ⟨fun _ _ => rfl, [e], rfl, by simpa using ⟨hp, hq⟩⟩

theorem Steps.put (Q : Event → Prop) (tmp : Path) (w : World) (c : Option (List Byte)) :
    Steps Q tmp w (w.put tmp c) :=
  ⟨fun p hp => World.put_other w tmp p c hp, [], by simp [World.put], by simp⟩

theorem Truncate_steps (Q : Event → Prop) (err : Option Error) (w : World) (tmp : Path)
    (size : Int) (hq : Q (.truncate tmp size)) :
    Steps Q tmp w (Truncate err w tmp size).2 := by
  have he := Steps.emit Q tmp w (.truncate tmp size) rfl hq
  unfold Truncate
  split
  · exact he
  · split
    · exact he
    · split
      · exact he
      · exact he.trans (Steps.put Q tmp _ _)

/-- What a successful `Truncate` has done. -/
theorem Truncate_none (err : Option Error) (w : World) (p : Path) (size : Int)
    (h : (Truncate err w p size).1 = none) :
    err = none ∧ 0 ≤ size ∧ ∃ c, w.files p = some c ∧
      (Truncate err w p size).2.files p = some (truncateTo c size.toNat) := by
  unfold Truncate at h ⊢
  split at h
  · simp at h
  · rename_i hs
    split at h
    · simp at h
    · split at h
      · simp at h
      · rename_i c hc
        refine ⟨rfl, by omega, c, hc, ?_⟩
        simp [hs, hc, World.put]

theorem expand_steps (Q : Event → Prop) (env : Env) (w : World) (tmp : Path) (size : Int)
    (hq1 : Q (.expand tmp size ((w.files tmp).map List.length)))
    (hq2 : Q (.truncate tmp size)) :
    Steps Q tmp w (expand env w tmp size).2 := by
  have he := Steps.emit Q tmp w (.expand tmp size ((w.files tmp).map List.length)) rfl hq1
  have ht := he.trans (Truncate_steps Q env.expandTruncateErr _ tmp size hq2)
  unfold expand
  dsimp only
  split
  · exact he
  · split
    · exact he
    · split
      · rename_i e w2 h
        have : w2 = (Truncate env.expandTruncateErr
            (w.emit (.expand tmp size ((w.files tmp).map List.length))) tmp size).2 := by
          rw [h]
        rw [this]
        exact ht
      · rename_i w2 h
        have : w2 = (Truncate env.expandTruncateErr
            (w.emit (.expand tmp size ((w.files tmp).map List.length))) tmp size).2 := by
          rw [h]
        rw [this]
        exact ht

/-- What a successful `expand` has met. -/
theorem expand_none (env : Env) (w : World) (image : Path) (size : Int)
    (h : (expand env w image size).1 = none) :
    env.expandOpenErr = none ∧ env.expandTruncateErr = none ∧ 0 ≤ size ∧
      env.expandCloseErr = none ∧
      ∃ c, w.files image = some c ∧
        (expand env w image size).2.files image = some (truncateTo c size.toNat) := by
  unfold expand at h ⊢
  dsimp only at h ⊢
  split at h
  · simp at h
  · split at h
    · simp at h
    · rename_i ho
      split at h
      · simp at h
      · rename_i w2 ht
        have hT := Truncate_none env.expandTruncateErr
          (w.emit (.expand image size ((w.files image).map List.length))) image size
          (by rw [ht])
        obtain ⟨h1, h2, c, h3, h4⟩ := hT
        refine ⟨ho, h1, h2, h, c, h3, ?_⟩
        rename_i hfile _ _
        simp only [World.emit_files] at hfile
        rw [ht] at h4
        simp only [World.emit_files, hfile, ho, ht]
        exact h4

theorem Rename_cases (env : Env) (w : World) (oldpath newpath : Path) :
    (Rename env w oldpath newpath).2.log = w.log ++ [.rename oldpath newpath] ∧
    (((Rename env w oldpath newpath).1 ≠ none ∧
        (Rename env w oldpath newpath).2.files = w.files) ∨
      ((Rename env w oldpath newpath).1 = none ∧ env.renameErr = none ∧
        ∃ c, w.files oldpath = some c ∧
          (Rename env w oldpath newpath).2.files
            = ((w.put oldpath none).put newpath (some c)).files)) := by
  unfold Rename
  split
  · exact ⟨rfl, Or.inl ⟨by simp, rfl⟩⟩
  · rename_i hrn
    split
    · exact ⟨rfl, Or.inl ⟨by simp, rfl⟩⟩
    · rename_i c hc
      exact ⟨rfl, Or.inr ⟨rfl, hrn, c, hc, rfl⟩⟩

/-- The body of `convertImageToRaw`: up to the rename it acts on the temp file
only, never calling `expand` with a size below the length of the file if the
requested size is at least the image size; it ends with an error and the
other files untouched, or with the temp file renamed onto `dest` after every
step has succeeded. -/
theorem convertImageToRawBody_spec (env : Env) (w : World) (img : Image) (dest tmp : Path)
    (size : Option Int) (hfile : w.files tmp = some []) :
    ∃ (w3 : World) (fin : List Event),
      Steps (Event.growsIf (∀ T, size = some T → img.size ≤ T)) tmp w w3 ∧
      (convertImageToRawBody env w img dest tmp size).2.log = w3.log ++ fin ∧
      (((convertImageToRawBody env w img dest tmp size).1 ≠ none ∧
          (fin = [] ∨ fin = [.rename tmp dest]) ∧
          (convertImageToRawBody env w img dest tmp size).2.files = w3.files) ∨
        ((convertImageToRawBody env w img dest tmp size).1 = none ∧
          fin = [.rename tmp dest] ∧
          (∃ c, w3.files tmp = some c ∧
            (convertImageToRawBody env w img dest tmp size).2.files
              = ((w3.put tmp none).put dest (some c)).files) ∧
          env.truncateErr = none ∧ 0 ≤ img.size ∧ env.barErr = none ∧
          (copySparse ⟨truncateTo [] img.size.toNat, env.writeAt, []⟩
            (NewProxyReader (NewSectionReader img bufSize img.size))).err = none ∧
          env.closeTmpErr = none ∧
          (∀ T, size = some T → env.expandOpenErr = none ∧ env.expandTruncateErr = none ∧
            0 ≤ T ∧ env.expandCloseErr = none) ∧
          env.renameErr = none)) := by
  unfold convertImageToRawBody
  have hst := Truncate_steps (Event.growsIf (∀ T, size = some T → img.size ≤ T))
    env.truncateErr w tmp img.size (fun _ => trivial)
  have hnone := Truncate_none env.truncateErr w tmp img.size
  generalize Truncate env.truncateErr w tmp img.size = rT at hst hnone
  obtain ⟨e1, w1⟩ := rT
  cases e1 with
  | some e => exact ⟨w1, [], hst, by simp, Or.inl ⟨by simp, Or.inl rfl, rfl⟩⟩
  | none =>
    obtain ⟨htr, hS0, c, hc, hw1⟩ := hnone rfl
    rw [hfile] at hc
    cases hc
    dsimp only at hw1 ⊢
    cases hbar : env.barErr with
    | some e => exact ⟨w1, [], hst, by simp, Or.inl ⟨by simp, Or.inl rfl, rfl⟩⟩
    | none =>
      dsimp only
      rw [hw1, Option.getD_some]
      have hlen : (copySparse ⟨truncateTo [] img.size.toNat, env.writeAt, []⟩
          (NewSectionReader img bufSize img.size)).w.content.length = img.size.toNat := by
        have h1 := sectionReads_total img bufSize img.size img.size.toNat 0 (by simpa using hS0)
        have h2 := copySparseLoop_length (NewSectionReader img bufSize img.size)
          ⟨truncateTo [] img.size.toNat, env.writeAt, []⟩ 0 le_rfl (by
            simp only [NewSectionReader, truncateTo_length]
            push_cast at h1 ⊢
            omega)
        rw [copySparse, h2, truncateTo_length]
      generalize hres : copySparse ⟨truncateTo [] img.size.toNat, env.writeAt, []⟩
          (NewSectionReader img bufSize img.size) = res at hlen
      have hst2 : Steps (Event.growsIf (∀ T, size = some T → img.size ≤ T)) tmp w
          (World.mk (w1.put tmp (some res.w.content)).files
            (w1.log ++ res.w.calls.map fun c => Event.writeAt tmp c.1 c.2)) := by
        refine hst.trans ⟨fun p hp => World.put_other w1 tmp p _ hp, _, rfl, ?_⟩
        intro ev hev
        obtain ⟨x, _, rfl⟩ := List.mem_map.mp hev
        exact ⟨rfl, fun _ => trivial⟩
      generalize hw2 : World.mk (w1.put tmp (some res.w.content)).files
            (w1.log ++ res.w.calls.map fun c => Event.writeAt tmp c.1 c.2)
          = w2 at hst2
      have hw2f : w2.files tmp = some res.w.content := by
        rw [← hw2]
        exact World.put_same _ _ _
      cases herr : res.err with
      | some e => exact ⟨w2, [], hst2, by simp, Or.inl ⟨by simp, Or.inl rfl, rfl⟩⟩
      | none =>
        dsimp only
        cases hcl : env.closeTmpErr with
        | some e => exact ⟨w2, [], hst2, by simp, Or.inl ⟨by simp, Or.inl rfl, rfl⟩⟩
        | none =>
          dsimp only
          cases size with
          | none =>
            dsimp only
            obtain ⟨hlog, hcase⟩ := Rename_cases env w2 tmp dest
            refine ⟨w2, [.rename tmp dest], hst2, hlog, ?_⟩
            rcases hcase with ⟨hne, hf⟩ | ⟨hn, hrn, c2, hc2, hf⟩
            · exact Or.inl ⟨hne, Or.inr rfl, hf⟩
            · exact Or.inr ⟨hn, rfl, ⟨c2, hc2, hf⟩, htr, hS0, rfl, rfl, rfl,
                fun T hT => (by cases hT), hrn⟩
          | some T =>
            dsimp only
            have hste := expand_steps
              (Event.growsIf (∀ T2, some T = some T2 → img.size ≤ T2)) env w2 tmp T
              (by
                intro hG
                have hT := hG T rfl
                refine ⟨res.w.content.length, by rw [hw2f]; rfl, ?_⟩
                rw [hlen]
                omega)
              (fun _ => trivial)
            have hen := expand_none env w2 tmp T
            generalize expand env w2 tmp T = rE at hste hen
            obtain ⟨e3, w3⟩ := rE
            cases e3 with
            | some e =>
              exact ⟨w3, [], hst2.trans hste, by simp, Or.inl ⟨by simp, Or.inl rfl, rfl⟩⟩
            | none =>
              dsimp only
              obtain ⟨ho, ht, hT0, hc, -⟩ := hen rfl
              obtain ⟨hlog, hcase⟩ := Rename_cases env w3 tmp dest
              refine ⟨w3, [.rename tmp dest], hst2.trans hste, hlog, ?_⟩
              rcases hcase with ⟨hne, hf⟩ | ⟨hn, hrn, c2, hc2, hf⟩
              · exact Or.inl ⟨hne, Or.inr rfl, hf⟩
              · exact Or.inr ⟨hn, rfl, ⟨c2, hc2, hf⟩, htr, hS0, rfl, rfl, rfl,
                  fun T2 hT2 => (by cases hT2; exact ⟨ho, ht, hT0, hc⟩), hrn⟩

/-- C4. Atomicity of the temp-file path: once `convertImageToRaw` has created
its temp file, no file exists at the temp path when it returns, and no path
other than `dest` and the temp path changes.  If it returns an error, the
file at `dest` is as before the call (or still absent).  Every call it issues
acts on the temp path, except a single rename of the temp file onto `dest`,
which comes last before the removal of the temp path and is present whenever
the result is nil.  A failure of the truncation to the source size, of the
progress bar, of `copySparse`, of closing the temp file, of `expand` or of
the rename makes the result a non-nil error. -/
theorem convertImageToRaw_atomic (env : Env) (w : World) (img : Image) (dest : Path)
    (size : Option Int) (hfresh : w.files (tempName dest env.rand) = none)
    (hct : env.createTempErr = none) :
    (convertImageToRaw env w img dest size).2.files (tempName dest env.rand) = none ∧
    ((convertImageToRaw env w img dest size).1 ≠ none →
      (convertImageToRaw env w img dest size).2.files dest = w.files dest) ∧
    (∀ p, p ≠ dest → p ≠ tempName dest env.rand →
      (convertImageToRaw env w img dest size).2.files p = w.files p) ∧
    (∃ evs fin, (convertImageToRaw env w img dest size).2.log
        = w.log ++ [.createTemp (tempName dest env.rand)] ++ evs ++ fin
          ++ [.removeAll (tempName dest env.rand)] ∧
      (∀ ev ∈ evs, ev.path = tempName dest env.rand) ∧
      (fin = [] ∨ fin = [.rename (tempName dest env.rand) dest]) ∧
      ((convertImageToRaw env w img dest size).1 = none →
        fin = [.rename (tempName dest env.rand) dest])) ∧
    ((env.truncateErr ≠ none ∨ img.size < 0) →
      (convertImageToRaw env w img dest size).1 ≠ none) ∧
    (env.barErr ≠ none → (convertImageToRaw env w img dest size).1 ≠ none) ∧
    ((copySparse ⟨truncateTo [] img.size.toNat, env.writeAt, []⟩
        (NewProxyReader (NewSectionReader img bufSize img.size))).err ≠ none →
      (convertImageToRaw env w img dest size).1 ≠ none) ∧
    (env.closeTmpErr ≠ none → (convertImageToRaw env w img dest size).1 ≠ none) ∧
    (∀ T, size = some T →
      (env.expandOpenErr ≠ none ∨ env.expandTruncateErr ≠ none ∨ T < 0 ∨
        env.expandCloseErr ≠ none) →
      (convertImageToRaw env w img dest size).1 ≠ none) ∧
    (env.renameErr ≠ none → (convertImageToRaw env w img dest size).1 ≠ none) := by
  have htmp := tempName_ne dest env.rand
  simp only [convertImageToRaw]
  generalize tempName dest env.rand = tmp at *
  rw [CreateTemp_ok env w tmp hfresh hct]
  dsimp only
  obtain ⟨w3, fin, ⟨hfr, evs, hlog3, hevs⟩, hlog, hcase⟩ :=
    convertImageToRawBody_spec env ((w.emit (.createTemp tmp)).put tmp (some [])) img dest tmp
      size (World.put_same _ _ _)
  generalize convertImageToRawBody env ((w.emit (.createTemp tmp)).put tmp (some [])) img dest
    tmp size = r at hlog hcase
  have hfr0 : ∀ p, p ≠ tmp → w3.files p = w.files p := by
    intro p hp
    rw [hfr p hp, World.put_other _ _ _ _ hp, World.emit_files]
  have hlogfull : (RemoveAll r.2 tmp).log
      = w.log ++ [.createTemp tmp] ++ evs ++ fin ++ [.removeAll tmp] := by
    simp only [RemoveAll, World.put, World.emit, hlog, hlog3, List.append_assoc]
  have hrm : ∀ p, p ≠ tmp → (RemoveAll r.2 tmp).files p = r.2.files p := by
    intro p hp
    simp [RemoveAll, World.put, World.emit, hp]
  have hgone : (RemoveAll r.2 tmp).files tmp = none := World.put_same _ _ _
  rcases hcase with ⟨hne, hfin, hfiles⟩ | ⟨hn, hfin, ⟨c, hc, hfiles⟩, h1, h2, h3, h4, h5, h6, h7⟩
  · refine ⟨hgone, ?_, ?_, ⟨evs, fin, hlogfull, fun ev hev => (hevs ev hev).1, hfin,
      fun h => absurd h hne⟩, fun _ => hne, fun _ => hne, fun _ => hne, fun _ => hne,
      fun _ _ _ => hne, fun _ => hne⟩
    · intro _
      rw [hrm dest (Ne.symm htmp), hfiles]
      exact hfr0 dest (Ne.symm htmp)
    · intro p hp1 hp2
      rw [hrm p hp2, hfiles]
      exact hfr0 p hp2
  · refine ⟨hgone, fun h => absurd hn h, ?_, ⟨evs, fin, hlogfull, fun ev hev => (hevs ev hev).1,
      Or.inr hfin, fun _ => hfin⟩, ?_, ?_, ?_, ?_, ?_, ?_⟩
    · intro p hp1 hp2
      rw [hrm p hp2, hfiles, World.put_other _ _ _ _ hp1, World.put_other _ _ _ _ hp2]
      exact hfr0 p hp2
    · intro h
      rcases h with h | h
      · exact absurd h1 h
      · omega
    · intro h
      exact absurd h3 h
    · intro h
      exact absurd h4 h
    · intro h
      exact absurd h5 h
    · intro T hT h
      obtain ⟨a, b, c2, d⟩ := h6 T hT
      rcases h with h | h | h | h
      · exact absurd a h
      · exact absurd b h
      · omega
      · exact absurd d h
    · intro h
      exact absurd h7 h

/-- The three ways in which `ConvertToRaw` ends: before any mutating call, in
`convertRawToRaw`, or in `convertImageToRaw`; the latter two are reached only
with a requested size that is absent or at least the image size. -/
theorem ConvertToRaw_cases (env : Env) (w : World) (source dest : Path) (size : Option Int)
    (allow : Bool) :
    (∃ e, ConvertToRaw env w source dest size allow = (some e, w)) ∨
    ∃ c img, w.files source = some c ∧ env.detect c = .ok img ∧
      (∀ T, size = some T → img.size ≤ T) ∧
      ((img.type = rawType ∧
          ConvertToRaw env w source dest size allow = convertRawToRaw env w source dest size) ∨
        ConvertToRaw env w source dest size allow = convertImageToRaw env w img dest size) := by
  unfold ConvertToRaw
  cases hsrc : w.files source with
  | none => exact Or.inl ⟨_, rfl⟩
  | some c =>
    dsimp only
    cases hopen : env.openErr with
    | some e => exact Or.inl ⟨_, rfl⟩
    | none =>
      dsimp only
      cases hdet : env.detect c with
      | error e => exact Or.inl ⟨_, rfl⟩
      | ok img =>
        dsimp only
        have hsz : (∃ s, tooSmall size img.size = some s) ∨
            (tooSmall size img.size = none ∧ ∀ T, size = some T → img.size ≤ T) := by
          cases size with
          | none => exact Or.inr ⟨rfl, fun T hT => by cases hT⟩
          | some s =>
            by_cases hs : s < img.size
            · exact Or.inl ⟨s, by simp [tooSmall, hs]⟩
            · refine Or.inr ⟨by simp [tooSmall, hs], fun T hT => ?_⟩
              cases hT
              omega
        rcases hsz with ⟨s, hs⟩ | ⟨hs, hG⟩
        · rw [hs]
          exact Or.inl ⟨_, rfl⟩
        · rw [hs]
          dsimp only
          cases hread : img.readable with
          | some e => exact Or.inl ⟨_, rfl⟩
          | none =>
            dsimp only
            by_cases hraw : img.type = rawType
            · rw [if_pos hraw]
              cases hclose : env.closeSrcErr with
              | some e => exact Or.inl ⟨_, rfl⟩
              | none => exact Or.inr ⟨c, img, rfl, hdet, hG, Or.inl ⟨hraw, rfl⟩⟩
            · rw [if_neg hraw]
              split
              · split
                · split
                  · exact Or.inl ⟨_, rfl⟩
                  · split
                    · exact Or.inl ⟨_, rfl⟩
                    · exact Or.inr ⟨c, img, rfl, hdet, hG, Or.inr rfl⟩
                · exact Or.inr ⟨c, img, rfl, hdet, hG, Or.inr rfl⟩
              · exact Or.inr ⟨c, img, rfl, hdet, hG, Or.inr rfl⟩

theorem CreateTemp_cases (env : Env) (w : World) (p : Path) :
    (∃ e, CreateTemp env w p = (some e, w.emit (.createTemp p))) ∨
    CreateTemp env w p = (none, (w.emit (.createTemp p)).put p (some [])) := by
  unfold CreateTemp
  split
  · exact Or.inl ⟨_, rfl⟩
  · split
    · exact Or.inl ⟨_, rfl⟩
    · exact Or.inr rfl

/-- What `fs.CopyFile` leaves: an error and one more recorded call, or the
target holding the bytes of the source (none when the target is the source
itself) with every other file as before. -/
theorem CopyFile_cases (env : Env) (w : World) (target source : Path) (c : List Byte)
    (hsrc : w.files source = some c) :
    (∃ e w1, CopyFile env w target source = (some e, w1) ∧
      w1.log = w.log ++ [.copyFile target source]) ∨
    ∃ w1, CopyFile env w target source = (none, w1) ∧
      w1.log = w.log ++ [.copyFile target source] ∧
      w1.files target = some (if source = target then [] else c) ∧
      ∀ p, p ≠ target → w1.files p = w.files p := by
  unfold CopyFile
  split
  · exact Or.inl ⟨_, _, rfl, rfl⟩
  · rw [hsrc]
    refine Or.inr ⟨_, rfl, rfl, ?_, ?_⟩
    · by_cases h : source = target
      · simp [World.put, h]
      · simp [World.put, World.emit, h, hsrc]
    · intro p hp
      simp [World.put, World.emit, hp]

/-- The calls of `convertImageToRaw` never shrink a file when the requested
size is absent or at least the image size. -/
theorem convertImageToRaw_grows (env : Env) (w : World) (img : Image) (dest : Path)
    (size : Option Int) (hG : ∀ T, size = some T → img.size ≤ T) :
    ∃ evs, (convertImageToRaw env w img dest size).2.log = w.log ++ evs ∧
      ∀ ev ∈ evs, ev.growsOnly := by
  simp only [convertImageToRaw]
  generalize tempName dest env.rand = tmp
  rcases CreateTemp_cases env w tmp with ⟨e, he⟩ | he
  · rw [he]
    exact ⟨[.createTemp tmp], rfl, by simp [Event.growsOnly]⟩
  · rw [he]
    · dsimp only
      obtain ⟨w3, fin, ⟨-, evs, hlog3, hevs⟩, hlog, hcase⟩ :=
        convertImageToRawBody_spec env ((w.emit (.createTemp tmp)).put tmp (some [])) img dest
          tmp size (World.put_same _ _ _)
      have hfin : fin = [] ∨ fin = [.rename tmp dest] := by
        rcases hcase with ⟨-, h, -⟩ | ⟨-, h, -⟩
        · exact h
        · exact Or.inr h
      generalize convertImageToRawBody env ((w.emit (.createTemp tmp)).put tmp (some [])) img
        dest tmp size = r at hlog
      refine ⟨[.createTemp tmp] ++ evs ++ fin ++ [.removeAll tmp], ?_, ?_⟩
      · simp only [RemoveAll, World.put, World.emit, hlog, hlog3, List.append_assoc]
      · intro ev hev
        simp only [List.mem_append, List.mem_singleton] at hev
        rcases hev with ((h | h) | h) | h
        · rw [h]
          trivial
        · exact (hevs ev h).2 hG
        · rcases hfin with hf | hf
          · rw [hf] at h
            cases h
          · rw [hf, List.mem_singleton] at h
            rw [h]
            trivial
        · rw [h]
          trivial

/-- The calls of `convertRawToRaw` never shrink a file when the source file is
at most as long as the requested size. -/
theorem convertRawToRaw_grows (env : Env) (w : World) (source dest : Path)
    (size : Option Int) (c : List Byte) (hsrc : w.files source = some c)
    (hG : ∀ T, size = some T → (c.length : Int) ≤ T) :
    ∃ evs, (convertRawToRaw env w source dest size).2.log = w.log ++ evs ∧
      ∀ ev ∈ evs, ev.growsOnly := by
  have key : ∀ (w1 : World) (pre : List Event), w1.log = w.log ++ pre →
      (∀ ev ∈ pre, ev.growsOnly) → w1.files dest = some c →
      ∃ evs, (match size with
          | some s => expand env w1 dest s
          | none => (none, w1)).2.log = w.log ++ evs ∧ ∀ ev ∈ evs, ev.growsOnly := by
    intro w1 pre hlog hpre hfile
    cases size with
    | none => exact ⟨pre, hlog, hpre⟩
    | some T =>
      dsimp only
      obtain ⟨-, evs, hl, hq⟩ := expand_steps Event.growsOnly env w1 dest T
        ⟨c.length, by rw [hfile]; rfl, hG T rfl⟩ trivial
      refine ⟨pre ++ evs, by rw [hl, hlog, List.append_assoc], ?_⟩
      intro ev hev
      rcases List.mem_append.mp hev with h | h
      · exact hpre ev h
      · exact (hq ev h).2
  unfold convertRawToRaw
  by_cases hsd : source = dest
  · subst hsd
    simp only [ne_eq, not_true_eq_false, if_false]
    exact key w [] (by simp) (by simp) hsrc
  · simp only [ne_eq, hsd, not_false_eq_true, if_true]
    rcases CopyFile_cases env w dest source c hsrc with ⟨e, w1, he, hl⟩ | ⟨w1, he, hl, hf, -⟩
    · rw [he]
      exact ⟨[.copyFile dest source], hl, by simp [Event.growsOnly]⟩
    · rw [he]
      rw [if_neg hsd] at hf
      exact key w1 [.copyFile dest source] hl (by simp [Event.growsOnly]) hf

/-- C10. The Resizer never shrinks: in every execution of `ConvertToRaw`, on
the raw-to-raw path and on the decode-and-copy path, each call of `expand`
that is reached finds a file whose length is at most the requested size, so
the truncation keeps every byte of the file and only appends zeros.  For a
raw image the size reported by the decoder is taken to be the length of the
file. -/
theorem ConvertToRaw_expand_never_shrinks (env : Env) (w : World) (source dest : Path)
    (size : Option Int) (allow : Bool)
    (hraw : ∀ c img, w.files source = some c → env.detect c = .ok img →
      img.type = rawType → img.size = c.length) :
    (∃ evs, (ConvertToRaw env w source dest size allow).2.log = w.log ++ evs ∧
      ∀ image T cur, Event.expand image T cur ∈ evs →
        ∃ len : Nat, cur = some len ∧ (len : Int) ≤ T) ∧
    (∀ (c : List Byte) (len : Nat) (T : Int), c.length = len → (len : Int) ≤ T →
      truncateTo c T.toNat = c ++ List.replicate (T.toNat - len) 0 ∧
      len ≤ (truncateTo c T.toNat).length) := by
  constructor
  · have hmain : ∃ evs, (ConvertToRaw env w source dest size allow).2.log = w.log ++ evs ∧
        ∀ ev ∈ evs, ev.growsOnly := by
      rcases ConvertToRaw_cases env w source dest size allow with
        ⟨e, he⟩ | ⟨c, img, hsrc, hdet, hG, ⟨htype, hrun⟩ | hrun⟩
      · exact ⟨[], by rw [he]; simp, by simp⟩
      · rw [hrun]
        have hs := hraw c img hsrc hdet htype
        exact convertRawToRaw_grows env w source dest size c hsrc (fun T hT => by
          rw [← hs]
          exact hG T hT)
      · rw [hrun]
        exact convertImageToRaw_grows env w img dest size hG
    obtain ⟨evs, hlog, hq⟩ := hmain
    exact ⟨evs, hlog, fun image T cur h => hq _ h⟩
  · intro c len T hlen hT
    subst hlen
    have h : c.length ≤ T.toNat := by omega
    rw [truncateTo_grow c _ h, List.length_append]
    exact ⟨rfl, Nat.le_add_right _ _⟩

/-! ### Strings that spell the same path -/

/-- When every string spells itself, `convertRawToRawOn` is `convertRawToRaw`. -/
theorem convertRawToRawOn_self (env : Env) (w : World) (source dest : Path)
    (size : Option Int) :
    convertRawToRawOn (fun s => s) env w source dest size
      = convertRawToRaw env w source dest size := rfl

/-- When every string spells itself, `ConvertToRawOn` is `ConvertToRaw`. -/
theorem ConvertToRawOn_self (env : Env) (w : World) (source dest : Path)
    (size : Option Int) (allow : Bool) :
    ConvertToRawOn (fun s => s) env w source dest size allow
      = ConvertToRaw env w source dest size allow := rfl

/-- The raw path with resize, when the destination is the same string as the
source or names another file than the source: if no call fails, the
destination holds the bytes of the source followed by zeros up to `T`. -/
theorem ConvertToRawOn_raw_resize (file : Path → Path) (env : Env) (w : World)
    (source dest : Path) (T : Int) (allow : Bool) (c : List Byte) (img : Image)
    (hsp : source = dest ∨ file source ≠ file dest)
    (hsrc : w.files (file source) = some c) (hopen : env.openErr = none)
    (hdet : env.detect c = .ok img) (htype : img.type = rawType)
    (hsize : img.size = c.length) (hread : img.readable = none)
    (hclose : env.closeSrcErr = none) (hcopy : env.copyFile = .ok)
    (ho : env.expandOpenErr = none) (ht : env.expandTruncateErr = none)
    (hc : env.expandCloseErr = none) (hT : (c.length : Int) ≤ T) :
    (ConvertToRawOn file env w source dest (some T) allow).1 = none ∧
    (ConvertToRawOn file env w source dest (some T) allow).2.files (file dest)
      = some (c ++ List.replicate (T.toNat - c.length) 0) := by
  have hT0 : (0 : Int) ≤ T := by omega
  have hlen : c.length ≤ T.toNat := by omega
  have hrun : ConvertToRawOn file env w source dest (some T) allow
      = convertRawToRawOn file env w source dest (some T) := by
    simp [ConvertToRawOn, tooSmall, hsrc, hopen, hdet, hsize, not_lt.mpr hT, hread, htype,
      hclose]
  rw [hrun]
  have hres : ∃ w1 : World, w1.files (file dest) = some c ∧
      convertRawToRawOn file env w source dest (some T) = expand env w1 (file dest) T := by
    by_cases hsd : source = dest
    · subst hsd
      exact ⟨w, hsrc, by simp [convertRawToRawOn]⟩
    · have hne : file source ≠ file dest := by
        rcases hsp with h | h
        · exact absurd h hsd
        · exact h
      rcases CopyFile_cases env w (file dest) (file source) c hsrc with
        ⟨e, w1, he, -⟩ | ⟨w1, he, -, hf, -⟩
      · simp [CopyFile, hcopy, hsrc] at he
      · rw [if_neg hne] at hf
        exact ⟨w1, hf, by simp [convertRawToRawOn, hsd, he]⟩
  obtain ⟨w1, hw1, hconv⟩ := hres
  rw [hconv, expand_ok env w1 (file dest) T c hw1 hT0 ho ht hc, truncateTo_grow c _ hlen]
  exact ⟨rfl, World.put_same _ _ _⟩

/-- C5. Raw source with resize, at a destination that is a second spelling of
the source: for the raw file `a` with bytes `1 2 3`, the call
`ConvertToRaw("a", "./a", &4, false)`, in which no call fails, returns nil and
leaves the file with the bytes `0 0 0 0` instead of `1 2 3 0`: the strings
differ, so `fs.CopyFile("./a", "a")` is called and truncates the file before
reading it.  With a nil size the file is left empty. -/
theorem ConvertToRaw_raw_second_spelling :
    secondSpelling "./a" = secondSpelling "a" ∧
    sampleWorld.files (secondSpelling "a") = some [1, 2, 3] ∧
    (ConvertToRawOn secondSpelling rawEnv sampleWorld "a" "./a" (some 4) false).1 = none ∧
    (ConvertToRawOn secondSpelling rawEnv sampleWorld "a" "./a" (some 4) false).2.files
      (secondSpelling "./a") = some [0, 0, 0, 0] ∧
    (ConvertToRawOn secondSpelling rawEnv sampleWorld "a" "./a" (some 4) false).2.files
      (secondSpelling "./a") ≠ some ([1, 2, 3] ++ List.replicate (4 - 3) 0) ∧
    (ConvertToRawOn secondSpelling rawEnv sampleWorld "a" "./a" none false).1 = none ∧
    (ConvertToRawOn secondSpelling rawEnv sampleWorld "a" "./a" none false).2.files
      (secondSpelling "./a") = some [] := by
  decide

/-! ### Instances on sample inputs -/

theorem copySparse_write_trace_witness :
    (copySparse goodFile (deliver (some Error.eof) sampleBlocks)).n = 6 ∧
    (copySparse goodFile (deliver (some Error.eof) sampleBlocks)).err = none ∧
    (copySparse goodFile (deliver (some Error.eof) sampleBlocks)).w.calls = [(2, [1, 2, 0])] :=
  have h := copySparse_write_trace sampleBlocks (some Error.eof)
    (fun e he => by cases he; rfl) goodFile (fun _ _ _ => rfl)
  ⟨h.1, h.2.1, h.2.2.1⟩

theorem copySparse_write_failure_witness :
    hasNonZero [1, 2, 0] = true ∧
    (copySparse shortFile (deliverAll [⟨[0, 0], by decide⟩] ++
      (⟨[1, 2, 0], none, by decide⟩ :: deliverAll [(⟨[5], by decide⟩ : Block 4)]))).n = 3 ∧
    (copySparse shortFile (deliverAll [⟨[0, 0], by decide⟩] ++
      (⟨[1, 2, 0], none, by decide⟩ :: deliverAll [(⟨[5], by decide⟩ : Block 4)]))).err
      = some (Error.shortWrite 3 1) ∧
    (copySparse shortFile (deliverAll [⟨[0, 0], by decide⟩] ++
      (⟨[1, 2, 0], none, by decide⟩ :: deliverAll [(⟨[5], by decide⟩ : Block 4)]))).r
      = deliverAll [⟨[5], by decide⟩] ∧
    (copySparse shortFile (deliverAll [⟨[0, 0], by decide⟩] ++
      (⟨[1, 2, 0], none, by decide⟩ :: deliverAll [(⟨[5], by decide⟩ : Block 4)]))).w.calls
      = [(2, [1, 2, 0])] :=
  have h := copySparse_write_failure [(⟨[0, 0], by decide⟩ : Block 4)] ⟨[1, 2, 0], by decide⟩
    none (fun e he => by cases he) (deliverAll [⟨[5], by decide⟩]) shortFile 1 none
    (fun k off d hk => by simp [expectedWrites, hasNonZero] at hk) (by decide) rfl
    (Or.inr (by decide))
  ⟨by decide, h.1, h.2.1, h.2.2.1, h.2.2.2⟩

theorem ReadAtMaximum_reads_at_most_witness :
    sampleStream.rest.length < 6 ∧
    ReadAtMaximum (fun _ => 0) 6 sampleStream 3 = some ([1, 2, 3], none) :=
  ⟨by decide, (ReadAtMaximum_reads_at_most (fun _ => 0) sampleStream 3 6 (by decide)).1⟩

theorem ConvertToRaw_size_too_small_witness :
    (3 : Int) < sampleImage.size ∧
    ConvertToRaw sampleEnv sampleWorld "a" "b" (some 3) true
      = (some (Error.sizeTooSmall 3 5 "a"), sampleWorld) :=
  ⟨by decide, ConvertToRaw_size_too_small sampleEnv sampleWorld "a" "b" 3 true [1, 2, 3]
    sampleImage (by decide) rfl rfl (by decide)⟩

theorem ConvertToRaw_backing_file_guard_witness :
    backedImage.backingFile = some "base.qcow2" ∧
    (∃ e, ConvertToRaw backedEnv sampleWorld "a" "b" (some 8) false = (some e, sampleWorld)) ∧
    ConvertToRaw backedEnv sampleWorld "a" "b" (some 8) true
      = convertImageToRaw backedEnv sampleWorld backedImage "b" (some 8) :=
  have h := ConvertToRaw_backing_file_guard backedEnv sampleWorld "a" "b" (some 8) [1, 2, 3]
    backedImage "base.qcow2" (by decide) rfl rfl rfl rfl (by decide)
  ⟨rfl, h.1, h.2.1 rfl (fun s hs => by cases hs; decide)⟩

theorem ConvertToRaw_same_path_raw_noop_witness :
    sampleWorld.files "a" = some [1, 2, 3] ∧ (rawImage [1, 2, 3]).type = rawType ∧
    ConvertToRaw rawEnv sampleWorld "a" "a" none false = (none, sampleWorld) :=
  ⟨by decide, rfl, ConvertToRaw_same_path_raw_noop rawEnv sampleWorld "a" [1, 2, 3]
    (rawImage [1, 2, 3]) (by decide) rfl rfl rfl rfl rfl⟩

theorem ConvertToRaw_decode_and_copy_witness :
    sampleWorld.files "a" = some [1, 2, 3] ∧
    sampleWorld.files (tempName "a" sampleEnv.rand) = none ∧
    (ConvertToRaw sampleEnv sampleWorld "a" "a" (some 7) false).1 = none ∧
    (ConvertToRaw sampleEnv sampleWorld "a" "a" (some 7) false).2.files "a"
      = some [0, 7, 0, 9, 0, 0, 0] ∧
    (ConvertToRaw sampleEnv sampleWorld "a" "a" (some 7) false).2.files
      (tempName "a" sampleEnv.rand) = none :=
  have h := ConvertToRaw_decode_and_copy sampleEnv sampleWorld "a" "a" (some 7) false [1, 2, 3]
    sampleImage 5 (by decide) rfl rfl rfl (Or.inl rfl) rfl rfl
    (fun T hT => by cases hT; decide) (fun _ _ _ => Or.inl rfl) (by decide) rfl rfl rfl
    (fun _ _ _ => rfl) rfl rfl rfl rfl rfl
  ⟨by decide, by decide, h.1, h.2.1.trans (by decide), h.2.2.2.2.2.2.1⟩

theorem convertImageToRaw_atomic_witness :
    sampleWorld.files (tempName "a" renameFailsEnv.rand) = none ∧
    renameFailsEnv.createTempErr = none ∧
    (convertImageToRaw renameFailsEnv sampleWorld sampleImage "a" none).1 ≠ none ∧
    (convertImageToRaw renameFailsEnv sampleWorld sampleImage "a" none).2.files "a"
      = some [1, 2, 3] ∧
    (convertImageToRaw renameFailsEnv sampleWorld sampleImage "a" none).2.files
      (tempName "a" renameFailsEnv.rand) = none :=
  have h := convertImageToRaw_atomic renameFailsEnv sampleWorld sampleImage "a" none
    (by decide) rfl
  have hne := h.2.2.2.2.2.2.2.2.2 (by decide)
  ⟨by decide, rfl, hne, (h.2.1 hne).trans (by decide), h.1⟩

theorem ConvertToRaw_expand_never_shrinks_witness :
    (∃ evs, (ConvertToRaw rawEnv sampleWorld "a" "b" (some 4) false).2.log
        = sampleWorld.log ++ evs ∧
      ∀ image T cur, Event.expand image T cur ∈ evs →
        ∃ len : Nat, cur = some len ∧ (len : Int) ≤ T) ∧
    (ConvertToRaw rawEnv sampleWorld "a" "b" (some 4) false).2.log
      = [.copyFile "b" "a", .expand "b" 4 (some 3), .truncate "b" 4] :=
  ⟨(ConvertToRaw_expand_never_shrinks rawEnv sampleWorld "a" "b" (some 4) false
      (fun c img _ hd _ => by cases hd; rfl)).1, by decide⟩

end Lima
